import Mathlib

/-!
Verification of the db-client-api processor subsystem against its
natural-language specification.  The definitions below are shallow
embeddings of the Python sources under `backend/`:

* `backend/processor-service/app/services/query_executor.py`
* `backend/processor-service/app/services/file_transfer.py`
* `backend/app/services/query_executor.py` (the legacy worker)
* `backend/app/services/file_transfer.py` (the legacy transfer service)
* `backend/api-service/app/api/api_v1/endpoints/queries.py`
* `backend/shared/models.py` (data model)

Machine integers are modelled as `Nat`, timestamps as `Nat`, nullable
columns as `Option`, JSON objects as association lists, and Python
exceptions as explicit error results.
-/

/-! ## String helpers (Python `str.endswith`, `x in s`, truthiness) -/

/-- `leadsWith p l` is true when the character list `l` starts with `p`
(the matcher behind Python's `startswith`). -/
def leadsWith : List Char → List Char → Bool
  | [], _ => true
  | _ :: _, [] => false
  | p :: ps, c :: cs => p == c && leadsWith ps cs

/-- `occursIn pat l` is true when `pat` occurs contiguously inside `l`
(Python's `pat in s` substring test). -/
def occursIn (pat : List Char) : List Char → Bool
  | [] => leadsWith pat []
  | c :: cs => leadsWith pat (c :: cs) || occursIn pat cs

/-- Python substring test `pat in s`. -/
def strMentions (s pat : String) : Bool :=
  occursIn pat.toList s.toList

/-- Python `s.endswith(t)`. -/
def trailsWith (s t : String) : Bool :=
  leadsWith t.toList.reverse s.toList.reverse

/-- Python truthiness of an optional string (`None` and `""` are falsy). -/
def pyTruthyStr : Option String → Bool
  | none => false
  | some s => !(s == "")

/-! ## Data model (`backend/shared/models.py`) -/

/-- `QueryStatus` enumeration from `shared/models.py`. -/
inductive QStatus
  | pending
  | queued
  | running
  | transferring
  | completed
  | failed
  deriving DecidableEq, Repr

/-- A JSON scalar-ish value stored inside `result_metadata`. -/
inductive MVal
  | str (s : String)
  | int (i : Int)
  | strList (l : List String)
  deriving DecidableEq, Repr

/-- A JSON object, modelled as an association list keyed by strings. -/
abbrev MetaMap : Type := List (String × MVal)

/-- First-match association lookup (the model of Python dict indexing). -/
def alookup (m : MetaMap) (k : String) : Option MVal :=
  match m with
  | [] => none
  | kv :: rest => if kv.1 = k then some kv.2 else alookup rest k

/-- Python truthiness of an optional dict (`None` and `{}` are falsy). -/
def pyTruthyMeta : Option MetaMap → Bool
  | none => false
  | some [] => false
  | some (_ :: _) => true

/-- The `queries` table row (`shared/models.py`, class `Query`). -/
structure QueryRow where
  qid : Nat
  userId : Nat
  queryText : String
  dbUsername : String
  dbPassword : String
  dbTns : String
  status : QStatus
  errorMessage : Option String
  resultMetadata : Option MetaMap
  exportLocation : Option String
  exportType : Option String
  exportFilename : Option String
  sshHostname : Option String
  createdAt : Nat
  startedAt : Option Nat
  updatedAt : Option Nat
  completedAt : Option Nat
  deriving DecidableEq, Repr

/-- The `user_settings` table row (`shared/models.py`, class `UserSettings`).
Secret columns that no modelled code path branches on are kept as plain
optional strings. -/
structure SettingsRow where
  userId : Nat
  exportLocation : Option String
  exportType : Option String
  maxParallelQueries : Option Nat
  sshHostname : Option String
  sshPort : Option Nat
  sshUsername : Option String
  sshPassword : Option String
  sshKey : Option String
  deriving DecidableEq, Repr

/-! ## Lifecycle recorder (`_update_query_status`)

Two implementations exist in the repository:

* `processor-service/app/services/query_executor.py` lines 316-362,
  which merges `result_metadata` into the existing JSON object, and
* `app/services/query_executor.py` lines 183-216 (legacy), which
  assigns the supplied `result_metadata` wholesale.
-/

/-- Python `existing.update(delta)` on dicts: existing keys keep their
position but take the delta's value; keys only in the delta are appended. -/
def dictUpdate (existing delta : MetaMap) : MetaMap :=
  (existing.map fun kv =>
    match alookup delta kv.1 with
    | some v => (kv.1, v)
    | none => kv)
  ++ delta.filter fun kv => (alookup existing kv.1).isNone

/-- `QueryExecutor._update_query_status` of the processor service
(the body of one successful transactional attempt).  `startedAt` is the
optional `started_at` argument, `now` is `datetime.now(timezone.utc)`. -/
def updateQueryStatusP (q : QueryRow) (status : QStatus)
    (errorMessage : Option String) (resultMetadata : Option MetaMap)
    (startedAt : Option Nat) (now : Nat) : QueryRow :=
  let q1 := { q with status := status }
  let q2 := if pyTruthyStr errorMessage then { q1 with errorMessage := errorMessage } else q1
  let merged := dictUpdate (q2.resultMetadata.getD []) (resultMetadata.getD [])
  let q3 := if pyTruthyMeta resultMetadata then { q2 with resultMetadata := some merged } else q2
  if status = QStatus.running then
    { q3 with startedAt := some (startedAt.getD now) }
  else if status = QStatus.completed ∨ status = QStatus.failed then
    { q3 with completedAt := some now }
  else q3

/-- `QueryExecutor._update_query_status` of the legacy `backend/app`
service: `query.result_metadata = result_metadata` replaces the stored
object; `started_at`/`completed_at` use `datetime.utcnow()`. -/
def updateQueryStatusL (q : QueryRow) (status : QStatus)
    (errorMessage : Option String) (resultMetadata : Option MetaMap)
    (now : Nat) : QueryRow :=
  let q1 := { q with status := status }
  let q2 := if pyTruthyStr errorMessage then { q1 with errorMessage := errorMessage } else q1
  let q3 := if pyTruthyMeta resultMetadata then { q2 with resultMetadata := resultMetadata } else q2
  if status = QStatus.running then
    { q3 with startedAt := some now }
  else if status = QStatus.completed ∨ status = QStatus.failed then
    { q3 with completedAt := some now }
  else q3

/-- Keys of a metadata object. -/
def metaKeys (m : MetaMap) : List String := m.map (·.1)

/-! Behaviour of `dictUpdate` on individual keys. -/

theorem alookup_append (a b : MetaMap) (k : String) :
    alookup (a ++ b) k = match alookup a k with
      | some v => some v
      | none => alookup b k := by
  induction a with
  | nil => rfl
  | cons kv rest ih =>
    by_cases hkv : kv.1 = k
    · simp [List.cons_append, alookup, hkv]
    · simp only [List.cons_append, alookup, if_neg hkv]
      exact ih

theorem alookup_mapPart (existing delta : MetaMap) (k : String) :
    alookup (existing.map fun kv =>
      match alookup delta kv.1 with
      | some v => (kv.1, v)
      | none => kv) k
    = match alookup existing k with
      | none => none
      | some v => match alookup delta k with
        | some w => some w
        | none => some v := by
  induction existing with
  | nil => rfl
  | cons kv rest ih =>
    by_cases hkv : kv.1 = k
    · subst hkv
      rcases hd : alookup delta kv.1 with _ | w <;>
        simp [alookup, hd]
    · rcases hd : alookup delta kv.1 with _ | w <;>
        simpa [alookup, hd, hkv] using ih

theorem alookup_filter_of_none (existing delta : MetaMap) (k : String)
    (h : alookup existing k = none) :
    alookup (delta.filter fun kv => (alookup existing kv.1).isNone) k
    = alookup delta k := by
  induction delta with
  | nil => rfl
  | cons kv rest ih =>
    by_cases hkv : kv.1 = k
    · subst hkv
      simp [List.filter, h, alookup]
    · rcases he : (alookup existing kv.1).isNone with _ | _ <;>
        simp [List.filter, he, alookup, hkv, ih]

theorem alookup_filter_none (delta : MetaMap) (p : String × MVal → Bool)
    (k : String) (h : alookup delta k = none) :
    alookup (delta.filter p) k = none := by
  induction delta with
  | nil => rfl
  | cons kv rest ih =>
    by_cases hkv : kv.1 = k
    · simp [alookup, hkv] at h
    · simp only [alookup, if_neg hkv] at h
      rcases hp : p kv with _ | _ <;> simp [List.filter, hp, alookup, hkv, ih h]

/-- Per-key characterisation of the Python dict merge: keys in the delta
take the delta's value, all other keys keep the existing value. -/
theorem alookup_dictUpdate (existing delta : MetaMap) (k : String) :
    alookup (dictUpdate existing delta) k
    = match alookup delta k with
      | some w => some w
      | none => alookup existing k := by
  unfold dictUpdate
  rw [alookup_append, alookup_mapPart]
  rcases he : alookup existing k with _ | v
  · rcases hd : alookup delta k with _ | w
    · simp only [he, hd]
      simpa using alookup_filter_none delta _ k hd
    · simp only [he, hd]
      rw [alookup_filter_of_none existing delta k he, hd]
  · rcases hd : alookup delta k with _ | w <;> simp [he, hd]

theorem alookup_eq_none_of_not_mem (m : MetaMap) (k : String)
    (hk : k ∉ metaKeys m) : alookup m k = none := by
  induction m with
  | nil => rfl
  | cons kv rest ih =>
    have h1 : ¬ kv.1 = k := fun h => hk (List.mem_cons.mpr (Or.inl h.symm))
    have h2 : k ∉ metaKeys rest := fun h => hk (List.mem_cons_of_mem _ h)
    show (if kv.1 = k then some kv.2 else alookup rest k) = none
    rw [if_neg h1]
    exact ih h2

/-- A sample `queries` row used to build concrete test inputs. -/
def baseRow : QueryRow :=
  { qid := 1, userId := 1, queryText := "SELECT 1 FROM DUAL",
    dbUsername := "scott", dbPassword := "tiger", dbTns := "db1",
    status := QStatus.pending, errorMessage := none, resultMetadata := none,
    exportLocation := none, exportType := none, exportFilename := none,
    sshHostname := none, createdAt := 0, startedAt := none,
    updatedAt := none, completedAt := none }

/-- C4 counterexample: the legacy `_update_query_status`
(`app/services/query_executor.py` lines 183-216) assigns the supplied
`result_metadata` wholesale, so the prior key `rows` is lost after an
update whose delta only carries `final_file_path`. -/
theorem update_metadata_replaces_cx :
    (updateQueryStatusL
        { baseRow with status := QStatus.running,
                       resultMetadata := some [("rows", MVal.int 5)] }
        QStatus.completed none
        (some [("final_file_path", MVal.str "/data/out.csv")]) 10).resultMetadata
      = some [("final_file_path", MVal.str "/data/out.csv")]
    ∧ alookup ((updateQueryStatusL
        { baseRow with status := QStatus.running,
                       resultMetadata := some [("rows", MVal.int 5)] }
        QStatus.completed none
        (some [("final_file_path", MVal.str "/data/out.csv")]) 10).resultMetadata.getD [])
        "rows" = none := by
  constructor <;> rfl

/-- C4 (amended): the processor-service recorder merges a partial
`result_metadata` delta into the stored object (prior keys survive unless
overwritten, delta keys take the delta's value), while the legacy
`backend/app` recorder replaces the stored object with the delta. -/
theorem update_metadata_merge (q : QueryRow) (st : QStatus) (em : Option String)
    (delta : MetaMap) (hdelta : delta ≠ []) (sa : Option Nat) (now : Nat) :
    ((updateQueryStatusP q st em (some delta) sa now).resultMetadata
        = some (dictUpdate (q.resultMetadata.getD []) delta))
    ∧ (∀ k, k ∉ metaKeys delta →
        alookup ((updateQueryStatusP q st em (some delta) sa now).resultMetadata.getD []) k
          = alookup (q.resultMetadata.getD []) k)
    ∧ (∀ k w, alookup delta k = some w →
        alookup ((updateQueryStatusP q st em (some delta) sa now).resultMetadata.getD []) k
          = some w)
    ∧ (updateQueryStatusL q st em (some delta) now).resultMetadata = some delta := by
  have htr : pyTruthyMeta (some delta) = true := by
    cases delta with
    | nil => exact absurd rfl hdelta
    | cons kv rest => rfl
  have hP : (updateQueryStatusP q st em (some delta) sa now).resultMetadata
      = some (dictUpdate (q.resultMetadata.getD []) delta) := by
    unfold updateQueryStatusP
    rcases hem : pyTruthyStr em with _ | _ <;>
      simp only [hem, htr, if_true, if_false, Option.getD_some] <;>
      split <;> (try split) <;> rfl
  refine ⟨hP, ?_, ?_, ?_⟩
  · intro k hk
    rw [hP]
    simp only [Option.getD_some]
    rw [alookup_dictUpdate, alookup_eq_none_of_not_mem delta k hk]
  · intro k w hw
    rw [hP]
    simp only [Option.getD_some]
    rw [alookup_dictUpdate, hw]
  · unfold updateQueryStatusL
    rcases hem : pyTruthyStr em with _ | _ <;>
      simp only [hem, htr, if_true, if_false] <;>
      split <;> (try split) <;> rfl

/-- C4 witness: concrete instance of the amended merge/replace behaviour. -/
theorem update_metadata_merge_witness :
    alookup ((updateQueryStatusP
        { baseRow with resultMetadata := some [("rows", MVal.int 5)] }
        QStatus.transferring none (some [("final_file_path", MVal.str "/x")])
        none 7).resultMetadata.getD []) "rows" = some (MVal.int 5)
    ∧ (updateQueryStatusL
        { baseRow with resultMetadata := some [("rows", MVal.int 5)] }
        QStatus.completed none (some [("final_file_path", MVal.str "/x")])
        7).resultMetadata = some [("final_file_path", MVal.str "/x")] := by
  constructor
  · have h := (update_metadata_merge
      { baseRow with resultMetadata := some [("rows", MVal.int 5)] }
      QStatus.transferring none [("final_file_path", MVal.str "/x")]
      (by decide) none 7).2.1 "rows" (by decide)
    rw [h]
    rfl
  · exact (update_metadata_merge
      { baseRow with resultMetadata := some [("rows", MVal.int 5)] }
      QStatus.completed none [("final_file_path", MVal.str "/x")]
      (by decide) none 7).2.2.2

/-- C8: in both `_update_query_status` implementations, `started_at` is
assigned exactly when the new status is `running`, `completed_at` exactly
when the new status is `completed` or `failed`, and updates to any other
status leave both timestamps unchanged. -/
theorem update_status_timestamps (q : QueryRow) (st : QStatus)
    (em : Option String) (rm : Option MetaMap) (sa : Option Nat) (now : Nat) :
    ((updateQueryStatusP q st em rm sa now).startedAt
        = if st = QStatus.running then some (sa.getD now) else q.startedAt)
    ∧ ((updateQueryStatusP q st em rm sa now).completedAt
        = if st = QStatus.completed ∨ st = QStatus.failed then some now else q.completedAt)
    ∧ ((updateQueryStatusL q st em rm now).startedAt
        = if st = QStatus.running then some now else q.startedAt)
    ∧ ((updateQueryStatusL q st em rm now).completedAt
        = if st = QStatus.completed ∨ st = QStatus.failed then some now else q.completedAt) := by
  unfold updateQueryStatusP updateQueryStatusL
  cases st <;>
    rcases hem : pyTruthyStr em with _ | _ <;>
    rcases hrm : pyTruthyMeta rm with _ | _ <;>
    simp [hem, hrm]

/-! ## Export type and filename resolution
(`processor-service/app/services/query_executor.py` lines 260-282) -/

/-- Python `a or b` on optional strings (`None` and `""` are falsy). -/
def pyOrStr (a b : Option String) : Option String :=
  if pyTruthyStr a then a else b

/-- Line 261: `query.export_type or (user_settings.export_type if
user_settings else None) or 'csv'`. -/
def resolvedExportTypeRaw (q : QueryRow) (us : Option SettingsRow) : String :=
  (pyOrStr (pyOrStr q.exportType (us.bind (·.exportType))) (some "csv")).getD "csv"

/-- Lines 263-264: `if export_type == 'excel': export_type = 'xlsx'`. -/
def computedExt (q : QueryRow) (us : Option SettingsRow) : String :=
  let e := resolvedExportTypeRaw q us
  if e = "excel" then "xlsx" else e

/-- Lines 266-278 of `execute_query`: the delivered filename.  `ts` is
`datetime.now(timezone.utc).strftime("%Y%m%d_%H%M%S")`. -/
def resolveFilename (q : QueryRow) (us : Option SettingsRow) (ts : String) : String :=
  let ext := computedExt q us
  if pyTruthyStr q.exportFilename then
    let base := q.exportFilename.getD ""
    if pyTruthyStr (some ext) && !(trailsWith base ("." ++ ext)) then base ++ "." ++ ext
    else base
  else
    Nat.repr q.qid ++ "_query_" ++ ts ++ "." ++ ext

theorem resolvedExportTypeRaw_ne (q : QueryRow) (us : Option SettingsRow) :
    resolvedExportTypeRaw q us ≠ "" := by
  unfold resolvedExportTypeRaw pyOrStr
  rcases hq : q.exportType with _ | s
  · rcases hu : us.bind (·.exportType) with _ | t
    · simp [pyTruthyStr]
    · by_cases ht : t = "" <;> simp [pyTruthyStr, ht]
  · by_cases hs : s = ""
    · rcases hu : us.bind (·.exportType) with _ | t
      · simp [pyTruthyStr, hs]
      · by_cases ht : t = "" <;> simp [pyTruthyStr, hs, ht]
    · simp [pyTruthyStr, hs]

theorem computedExt_ne (q : QueryRow) (us : Option SettingsRow) :
    computedExt q us ≠ "" := by
  unfold computedExt
  by_cases h : resolvedExportTypeRaw q us = "excel"
  · simp [h]
  · simpa [h] using resolvedExportTypeRaw_ne q us

/-- A concrete row with a custom excel filename. -/
def rowReport : QueryRow :=
  { baseRow with qid := 3, exportFilename := some "report", exportType := some "excel" }

/-- A concrete row with no custom filename. -/
def rowSeven : QueryRow :=
  { baseRow with qid := 7 }

/-- C9 counterexample: with no `export_filename`, query id 7 and export
type csv, the code produces `7_query_{ts}.csv`, not the claimed
`query_7_query_{ts}.csv` (the `query_` lead is absent). -/
theorem default_filename_cx :
    resolveFilename rowSeven none "20250101_000000" = "7_query_20250101_000000.csv"
    ∧ resolveFilename rowSeven none "20250101_000000"
        ≠ "query_7_query_20250101_000000.csv" := by
  constructor
  · rfl
  · decide

/-- C9 (amended): the delivered filename is `Query.export_filename` with
the computed extension appended when the name does not already end in it;
otherwise `{id}_query_{timestamp}.{ext}` (no `query_` lead), where the
extension comes from the resolved export type with `excel` mapped to
`xlsx` and is never empty. -/
theorem filename_resolution (q : QueryRow) (us : Option SettingsRow) (ts : String) :
    (computedExt q us ≠ "")
    ∧ (∀ f, q.exportFilename = some f → f ≠ "" →
        resolveFilename q us ts =
          (if trailsWith f ("." ++ computedExt q us) then f
           else f ++ "." ++ computedExt q us))
    ∧ (q.exportFilename = none →
        resolveFilename q us ts
          = Nat.repr q.qid ++ "_query_" ++ ts ++ "." ++ computedExt q us)
    ∧ (q.exportType = some "excel" → computedExt q us = "xlsx") := by
  refine ⟨computedExt_ne q us, ?_, ?_, ?_⟩
  · intro f hf hf0
    have hcne := computedExt_ne q us
    unfold resolveFilename
    have htr : pyTruthyStr (some f) = true := by simp [pyTruthyStr, hf0]
    have htre : pyTruthyStr (some (computedExt q us)) = true := by
      simp [pyTruthyStr, hcne]
    simp only [hf, htr, if_true, Option.getD_some, htre, Bool.true_and]
    rcases h : trailsWith f ("." ++ computedExt q us) with _ | _ <;> simp [h]
  · intro hf
    unfold resolveFilename
    simp [hf, pyTruthyStr]
  · intro hx
    unfold computedExt resolvedExportTypeRaw pyOrStr
    simp [hx, pyTruthyStr]

/-- C9 witness: the amended filename rule at concrete inputs. -/
theorem filename_resolution_witness :
    resolveFilename rowReport none "20250101_000000" = "report.xlsx"
    ∧ resolveFilename rowSeven none "20250101_000000"
        = "7_query_20250101_000000.csv" := by
  constructor
  · have h := (filename_resolution rowReport none "20250101_000000").2.1 "report"
      rfl (by decide)
    rw [h]
    rfl
  · have h := (filename_resolution rowSeven none "20250101_000000").2.2.1 rfl
    rw [h]
    rfl

/-! ## Pending-query fetch
(`processor-service/app/services/query_executor.py` lines 90-98)

The SQLAlchemy statement is `select(Query, UserSettings).join(UserSettings,
Query.user_id == UserSettings.user_id).where(Query.status ==
QueryStatus.pending.value).order_by(Query.created_at)` — an INNER join. -/

/-- Row order `ORDER BY created_at` (ascending, ties in scan order). -/
def createdLE (a b : QueryRow) : Prop := a.createdAt ≤ b.createdAt

instance : DecidableRel createdLE := fun a b => Nat.decLe a.createdAt b.createdAt

instance : IsTotal QueryRow createdLE := ⟨fun a b => Nat.le_total a.createdAt b.createdAt⟩

instance : IsTrans QueryRow createdLE := ⟨fun _ _ _ => Nat.le_trans⟩

/-- The scheduler's pending fetch: inner join of pending queries with the
`user_settings` table on `user_id`, ordered by `created_at`. -/
def listPendingWithSettings (queries : List QueryRow) (tbl : List SettingsRow) :
    List (QueryRow × SettingsRow) :=
  (List.insertionSort createdLE
      (queries.filter fun q => q.status == QStatus.pending)).flatMap
    fun q => (tbl.filter fun s => s.userId == q.userId).map fun s => (q, s)

/-- A pending query whose owner has no `user_settings` row. -/
def orphanPending : QueryRow := { baseRow with qid := 11, userId := 42 }

/-- C5 counterexample: the fetch uses an inner join, so a pending query
whose owner has no `UserSettings` row is omitted entirely instead of being
returned with default settings. -/
theorem list_pending_inner_join_cx :
    listPendingWithSettings [orphanPending] [] = []
    ∧ orphanPending.status = QStatus.pending := by
  constructor <;> rfl

theorem pairwise_key_of_all_eq (m : List (QueryRow × SettingsRow)) (c : Nat)
    (h : ∀ p ∈ m, p.1.createdAt = c) :
    m.Pairwise fun p1 p2 => p1.1.createdAt ≤ p2.1.createdAt := by
  induction m with
  | nil => exact List.Pairwise.nil
  | cons x xs ih =>
    refine List.Pairwise.cons ?_ (ih fun p hp => h p (List.mem_cons_of_mem _ hp))
    intro y hy
    rw [h x (List.mem_cons_self _ _), h y (List.mem_cons_of_mem _ hy)]

theorem pairwise_bind_key (l : List QueryRow)
    (f : QueryRow → List (QueryRow × SettingsRow))
    (hsort : l.Pairwise createdLE)
    (hf : ∀ q p, p ∈ f q → p.1.createdAt = q.createdAt) :
    (l.flatMap f).Pairwise fun p1 p2 => p1.1.createdAt ≤ p2.1.createdAt := by
  induction l with
  | nil => exact List.Pairwise.nil
  | cons q rest ih =>
    rw [List.flatMap_cons]
    rw [List.pairwise_cons] at hsort
    refine List.pairwise_append.mpr ⟨?_, ih hsort.2, ?_⟩
    · exact pairwise_key_of_all_eq _ q.createdAt (fun p hp => hf q p hp)
    · intro x hx y hy
      rw [hf q x hx]
      obtain ⟨r, hr, hyr⟩ := List.mem_flatMap.mp hy
      rw [hf r y hyr]
      exact hsort.1 r hr

/-- C5 (amended): the pending fetch returns exactly the pending queries
whose owner has a `UserSettings` row — each paired with that row and
ordered by `created_at` ascending; a pending query whose owner lacks a
settings row is omitted. -/
theorem list_pending_characterisation (queries : List QueryRow) (tbl : List SettingsRow) :
    (∀ p ∈ listPendingWithSettings queries tbl,
        p.1 ∈ queries ∧ p.1.status = QStatus.pending
          ∧ p.2 ∈ tbl ∧ p.2.userId = p.1.userId)
    ∧ (∀ q ∈ queries, q.status = QStatus.pending → ∀ s ∈ tbl, s.userId = q.userId →
        (q, s) ∈ listPendingWithSettings queries tbl)
    ∧ (listPendingWithSettings queries tbl).Pairwise
        (fun p1 p2 => p1.1.createdAt ≤ p2.1.createdAt) := by
  refine ⟨?_, ?_, ?_⟩
  · intro p hp
    obtain ⟨q, hq, hpq⟩ := List.mem_flatMap.mp hp
    obtain ⟨s, hs, rfl⟩ := List.mem_map.mp hpq
    have hq' : q ∈ queries.filter fun q => q.status == QStatus.pending :=
      ((List.perm_insertionSort createdLE _).mem_iff).mp hq
    have hs' := List.mem_filter.mp hs
    refine ⟨List.mem_of_mem_filter hq', ?_, hs'.1, ?_⟩
    · have := (List.mem_filter.mp hq').2
      simpa using this
    · simpa using hs'.2
  · intro q hq hqp s hs hsu
    refine List.mem_flatMap.mpr ⟨q, ?_, ?_⟩
    · exact ((List.perm_insertionSort createdLE _).mem_iff).mpr
        (List.mem_filter.mpr ⟨hq, by simp [hqp]⟩)
    · exact List.mem_map.mpr ⟨s, List.mem_filter.mpr ⟨hs, by simp [hsu]⟩, rfl⟩
  · refine pairwise_bind_key _ _ ?_ ?_
    · exact List.sorted_insertionSort createdLE _
    · intro q p hp
      obtain ⟨s, _, rfl⟩ := List.mem_map.mp hp
      rfl

/-- C5 witness: a pending query with a matching settings row is returned. -/
theorem list_pending_characterisation_witness :
    (orphanPending,
      ({ userId := 42, exportLocation := none, exportType := none,
         maxParallelQueries := none, sshHostname := none, sshPort := some 22,
         sshUsername := none, sshPassword := none, sshKey := none } : SettingsRow))
      ∈ listPendingWithSettings [orphanPending]
        [{ userId := 42, exportLocation := none, exportType := none,
           maxParallelQueries := none, sshHostname := none, sshPort := some 22,
           sshUsername := none, sshPassword := none, sshKey := none }] := by
  exact (list_pending_characterisation [orphanPending] _).2.1 orphanPending
    (List.mem_cons_self _ _) rfl _ (List.mem_cons_self _ _) rfl

/-! ## Rerun endpoints
(`api-service/app/api/api_v1/endpoints/queries.py`): `rerun_query`
(lines 257-306) and `batch_rerun_queries` (lines 104-171). -/

/-- `select(QueryModel).where(id == query_id, user_id == current_user.id)`. -/
def findOwnedQuery (db : List QueryRow) (qid uid : Nat) : Option QueryRow :=
  db.find? fun r => r.qid == qid && r.userId == uid

/-- The row built by the single-query `rerun_query` endpoint (lines
279-290).  `export_filename` is NOT among the copied keyword arguments, so
the new row takes the column default (`NULL`); `error_message`,
`result_metadata` and the processor timestamps likewise default. -/
def rerunNewRow (orig : QueryRow) (newId now : Nat) : QueryRow :=
  { qid := newId, userId := orig.userId, queryText := orig.queryText,
    dbUsername := orig.dbUsername, dbPassword := orig.dbPassword,
    dbTns := orig.dbTns, status := QStatus.pending, errorMessage := none,
    resultMetadata := none, exportLocation := orig.exportLocation,
    exportType := orig.exportType, exportFilename := none,
    sshHostname := orig.sshHostname, createdAt := now, startedAt := none,
    updatedAt := none, completedAt := none }

/-- The row built per id by `batch_rerun_queries` (lines 145-156), which
does copy `export_filename`; `created_at` takes the server default `now`. -/
def batchRerunNewRow (orig : QueryRow) (newId now : Nat) : QueryRow :=
  { qid := newId, userId := orig.userId, queryText := orig.queryText,
    dbUsername := orig.dbUsername, dbPassword := orig.dbPassword,
    dbTns := orig.dbTns, status := QStatus.pending, errorMessage := none,
    resultMetadata := none, exportLocation := orig.exportLocation,
    exportType := orig.exportType, exportFilename := orig.exportFilename,
    sshHostname := orig.sshHostname, createdAt := now, startedAt := none,
    updatedAt := none, completedAt := none }

/-- `rerun_query`: look the query up (404 → `none`), then `db.add` the new
row; no existing row is modified. -/
def rerunEndpoint (db : List QueryRow) (qid uid newId now : Nat) :
    Option (List QueryRow × QueryRow) :=
  match findOwnedQuery db qid uid with
  | none => none
  | some orig => some (db ++ [rerunNewRow orig newId now], rerunNewRow orig newId now)

/-- A completed query with a custom filename, to rerun. -/
def doneRow : QueryRow :=
  { baseRow with qid := 5, status := QStatus.completed,
                 exportFilename := some "monthly", sshHostname := some "hostB" }

/-- C7 counterexample: the single-query rerun endpoint does not copy
`export_filename` — the new row's `export_filename` is `NULL` while the
original's is `monthly`. -/
theorem rerun_drops_export_filename_cx :
    (rerunNewRow doneRow 9 3).exportFilename = none
    ∧ doneRow.exportFilename = some "monthly"
    ∧ (rerunNewRow doneRow 9 3).exportFilename ≠ doneRow.exportFilename := by
  refine ⟨rfl, rfl, ?_⟩
  decide

/-- C7 (amended): rerunning `q` creates a new `pending` row preserving
`query_text`, `db_username`, `db_password`, `db_tns`, `export_location`,
`export_type` and `ssh_hostname` of `q` and leaves every existing row
(including `q`) unmodified; `batch_rerun_queries` preserves
`export_filename` as well, but the single-query `rerun_query` endpoint
leaves `export_filename` unset on the new row. -/
theorem rerun_preserves_inputs (db : List QueryRow) (qid uid newId now : Nat)
    (db' : List QueryRow) (nr orig : QueryRow)
    (hfind : findOwnedQuery db qid uid = some orig)
    (h : rerunEndpoint db qid uid newId now = some (db', nr)) :
    nr.queryText = orig.queryText
    ∧ nr.dbUsername = orig.dbUsername
    ∧ nr.dbPassword = orig.dbPassword
    ∧ nr.dbTns = orig.dbTns
    ∧ nr.exportLocation = orig.exportLocation
    ∧ nr.exportType = orig.exportType
    ∧ nr.sshHostname = orig.sshHostname
    ∧ nr.exportFilename = none
    ∧ nr.status = QStatus.pending
    ∧ db' = db ++ [nr]
    ∧ db ⊆ db'
    ∧ orig ∈ db'
    ∧ (batchRerunNewRow orig newId now).exportFilename = orig.exportFilename
    ∧ (batchRerunNewRow orig newId now).queryText = orig.queryText
    ∧ (batchRerunNewRow orig newId now).dbUsername = orig.dbUsername
    ∧ (batchRerunNewRow orig newId now).dbPassword = orig.dbPassword
    ∧ (batchRerunNewRow orig newId now).dbTns = orig.dbTns
    ∧ (batchRerunNewRow orig newId now).exportLocation = orig.exportLocation
    ∧ (batchRerunNewRow orig newId now).exportType = orig.exportType
    ∧ (batchRerunNewRow orig newId now).sshHostname = orig.sshHostname
    ∧ (batchRerunNewRow orig newId now).status = QStatus.pending := by
  unfold rerunEndpoint at h
  rw [hfind] at h
  simp only [Option.some.injEq, Prod.mk.injEq] at h
  obtain ⟨hdb, hnr⟩ := h
  subst hdb
  subst hnr
  have hmem : orig ∈ db := List.mem_of_find?_eq_some hfind
  refine ⟨rfl, rfl, rfl, rfl, rfl, rfl, rfl, rfl, rfl, rfl, ?_, ?_,
    rfl, rfl, rfl, rfl, rfl, rfl, rfl, rfl, rfl⟩
  · intro x hx
    exact List.mem_append_left _ hx
  · exact List.mem_append_left _ hmem

/-- C7 witness: the amended rerun behaviour at a concrete database. -/
theorem rerun_preserves_inputs_witness :
    (rerunNewRow doneRow 9 3).sshHostname = some "hostB"
    ∧ (rerunNewRow doneRow 9 3).exportFilename = none
    ∧ (batchRerunNewRow doneRow 9 3).exportFilename = some "monthly"
    ∧ doneRow ∈ [doneRow] ++ [rerunNewRow doneRow 9 3] := by
  have h := rerun_preserves_inputs [doneRow] 5 1 9 3
    ([doneRow] ++ [rerunNewRow doneRow 9 3]) (rerunNewRow doneRow 9 3) doneRow
    (by decide) (by decide)
  exact ⟨h.2.2.2.2.2.2.1, h.2.2.2.2.2.2.2.1, h.2.2.2.2.2.2.2.2.2.2.2.2.1,
    h.2.2.2.2.2.2.2.2.2.2.2.1⟩

/-! ## File transfer with retries
(`app/services/file_transfer.py` lines 177-289, the legacy
`FileTransferService.transfer_file`, and the worker reaction in
`app/services/query_executor.py` lines 126-161).

An SSH attempt (connect, mkdir, scp, verify, chmod) is abstracted by its
outcome; the pre-SSH checks (local file exists, path normalisation) are
assumed to pass.  `copyOk` abstracts whether the `shutil.copy2` local
fallback succeeds, `copyErr` its error text when it fails. -/

/-- Outcome of one SSH transfer attempt. -/
inductive AttemptRes
  | success
  | sshFail (msg : String)
  deriving DecidableEq, Repr

/-- How a `transfer_file` call ends. -/
inductive TransferResult
  | delivered
  | copiedLocally
  | raised (msg : String)
  | returnedFalse
  deriving DecidableEq, Repr

/-- A `transfer_file` run: its result, attempts consumed, and the number
of `asyncio.sleep(self.retry_delay)` inter-attempt sleeps executed. -/
structure TransferRun where
  result : TransferResult
  attemptsMade : Nat
  sleeps : Nat
  deriving DecidableEq, Repr

/-- The `while retries < self.max_retries` loop of the legacy
`transfer_file`.  On a failed attempt: non-final attempts increment
`retries`, sleep and continue; on the final attempt a message containing
`Permission denied` is re-raised (and wrapped by the outer handler into
`All transfer attempts failed: …`), otherwise the service falls back to a
local `shutil.copy2` and returns success; a failing local copy raises
`Transfer failed and local copy failed: …`, also wrapped by the outer
handler.  `fuel` bounds the loop and is instantiated with `max_retries`,
which the termination argument (one attempt per iteration) makes exact. -/
def legacyTransferGo (attempts : Nat → AttemptRes) (copyOk : Bool)
    (copyErr : String) (maxRetries : Nat) :
    Nat → Nat → Nat → Nat → TransferRun
  | 0, _, made, slept => ⟨TransferResult.raised "loop fuel exhausted", made, slept⟩
  | fuel + 1, retries, made, slept =>
    if retries < maxRetries then
      match attempts retries with
      | AttemptRes.success => ⟨TransferResult.delivered, made + 1, slept⟩
      | AttemptRes.sshFail msg =>
        if retries + 1 < maxRetries then
          legacyTransferGo attempts copyOk copyErr maxRetries fuel
            (retries + 1) (made + 1) (slept + 1)
        else
          if strMentions msg "Permission denied" then
            ⟨TransferResult.raised ("All transfer attempts failed: " ++ msg),
              made + 1, slept⟩
          else if copyOk then
            ⟨TransferResult.copiedLocally, made + 1, slept⟩
          else
            ⟨TransferResult.raised
              ("All transfer attempts failed: Transfer failed and local copy failed: "
                ++ copyErr), made + 1, slept⟩
    else
      ⟨TransferResult.returnedFalse, made, slept⟩

/-- `transfer_file` with the hard-coded `self.max_retries = 3`. -/
def legacyTransferFile (attempts : Nat → AttemptRes) (copyOk : Bool)
    (copyErr : String) : TransferRun :=
  legacyTransferGo attempts copyOk copyErr 3 3 0 0 0

/-- How the legacy worker (`execute`, lines 126-161) turns the transfer
outcome into a status write: truthy success → `completed`; an exception →
`failed` with `File transfer failed: {e}` (the dedicated
`asyncssh.PermissionDenied` branch is unreachable through `transfer_file`,
which always wraps the final error in a plain `Exception`); a falsy return
leaves the row untouched in `transferring`. -/
def legacyWorkerTransferStatus (r : TransferRun) : QStatus × Option String :=
  match r.result with
  | TransferResult.delivered => (QStatus.completed, none)
  | TransferResult.copiedLocally => (QStatus.completed, none)
  | TransferResult.raised msg => (QStatus.failed, some ("File transfer failed: " ++ msg))
  | TransferResult.returnedFalse => (QStatus.transferring, none)

/-- The processor-service `transfer_file`
(`processor-service/app/services/file_transfer.py` lines 281-334): a
single attempt, no retry loop and no local fallback — any failure is
re-raised to the worker after recording `File transfer failed: …`. -/
def processorTransferResult (outcome : AttemptRes) : TransferResult :=
  match outcome with
  | AttemptRes.success => TransferResult.delivered
  | AttemptRes.sshFail msg => TransferResult.raised ("File transfer failed: " ++ msg)

/-- Every SSH attempt drops with a connection error. -/
def connRefusedTrace : Nat → AttemptRes :=
  fun _ => AttemptRes.sshFail "Connection refused"

/-- Every SSH attempt is refused with a permission error. -/
def permDeniedTrace : Nat → AttemptRes :=
  fun _ => AttemptRes.sshFail "Permission denied"

/-- C1: in the legacy service, when all 3 SSH attempts fail with a
non-permission error and the local copy destination is writable, the code
silently copies the file to the local destination and reports success —
the worker then marks the query `completed`, not `failed`.  The
processor-service transfer, by contrast, propagates the failure. -/
theorem ssh_retry_exhaustion_local_fallback :
    legacyTransferFile connRefusedTrace true ""
      = ⟨TransferResult.copiedLocally, 3, 2⟩
    ∧ legacyWorkerTransferStatus (legacyTransferFile connRefusedTrace true "")
      = (QStatus.completed, none)
    ∧ processorTransferResult (AttemptRes.sshFail "Connection refused")
      = TransferResult.raised ("File transfer failed: " ++ "Connection refused") := by
  refine ⟨?_, ?_, rfl⟩ <;> rfl

theorem occursIn_append_right (pat xs ys : List Char)
    (h : occursIn pat ys = true) : occursIn pat (xs ++ ys) = true := by
  induction xs with
  | nil => simpa using h
  | cons c cs ih =>
    show (leadsWith pat (c :: (cs ++ ys)) || occursIn pat (cs ++ ys)) = true
    rw [ih]
    exact Bool.or_true _

theorem strMentions_append_right (pre m pat : String)
    (h : strMentions m pat = true) : strMentions (pre ++ m) pat = true := by
  unfold strMentions at h ⊢
  have hdata : (pre ++ m).toList = pre.toList ++ m.toList := by
    simp [String.toList]
  rw [hdata]
  exact occursIn_append_right _ _ _ h

/-- C2 counterexample: an SSH permission-denied failure on attempt 1 is
retried like any other error — the legacy service performs 3 attempts with
2 inter-attempt sleeps, not the claimed single attempt with none. -/
theorem permission_denied_retried_cx :
    (legacyTransferFile permDeniedTrace true "").attemptsMade = 3
    ∧ (legacyTransferFile permDeniedTrace true "").sleeps = 2
    ∧ ¬ ((legacyTransferFile permDeniedTrace true "").attemptsMade = 1
          ∧ (legacyTransferFile permDeniedTrace true "").sleeps = 0) := by
  refine ⟨rfl, rfl, ?_⟩
  intro h
  exact absurd (rfl.trans h.1) (by decide)

/-- C2 (amended): SSH permission-denied errors are retried like any other
transfer error — 3 attempts with 2 sleeps of `retry_delay` — but after the
final attempt the error is re-raised with no local-copy fallback
(regardless of whether a local copy would succeed), and the worker records
`failed` with an `error_message` mentioning the permission denial. -/
theorem legacyTransferGo_step_retry (attempts : Nat → AttemptRes)
    (copyOk : Bool) (copyErr : String) (mr fuel retries made slept : Nat)
    (m : String) (hlt : retries < mr) (hnext : retries + 1 < mr)
    (hat : attempts retries = AttemptRes.sshFail m) :
    legacyTransferGo attempts copyOk copyErr mr (fuel + 1) retries made slept
      = legacyTransferGo attempts copyOk copyErr mr fuel
          (retries + 1) (made + 1) (slept + 1) := by
  rw [legacyTransferGo, if_pos hlt]
  simp only [hat]
  rw [if_pos hnext]

theorem legacyTransferGo_final_perm (attempts : Nat → AttemptRes)
    (copyOk : Bool) (copyErr : String) (mr fuel retries made slept : Nat)
    (m : String) (hlt : retries < mr) (hnext : ¬ retries + 1 < mr)
    (hat : attempts retries = AttemptRes.sshFail m)
    (hm : strMentions m "Permission denied" = true) :
    legacyTransferGo attempts copyOk copyErr mr (fuel + 1) retries made slept
      = ⟨TransferResult.raised ("All transfer attempts failed: " ++ m),
          made + 1, slept⟩ := by
  rw [legacyTransferGo, if_pos hlt]
  simp only [hat]
  rw [if_neg hnext, if_pos hm]

theorem permission_denied_behaviour (attempts : Nat → AttemptRes)
    (copyOk : Bool) (copyErr : String)
    (hperm : ∀ i, i < 3 → ∃ m, attempts i = AttemptRes.sshFail m
      ∧ strMentions m "Permission denied" = true) :
    ∃ msg, legacyTransferFile attempts copyOk copyErr
        = ⟨TransferResult.raised msg, 3, 2⟩
      ∧ strMentions msg "Permission denied" = true
      ∧ legacyWorkerTransferStatus (legacyTransferFile attempts copyOk copyErr)
        = (QStatus.failed, some ("File transfer failed: " ++ msg)) := by
  obtain ⟨m0, h0, _⟩ := hperm 0 (by decide)
  obtain ⟨m1, h1, _⟩ := hperm 1 (by decide)
  obtain ⟨m2, h2, hm2⟩ := hperm 2 (by decide)
  have hrun : legacyTransferFile attempts copyOk copyErr
      = ⟨TransferResult.raised ("All transfer attempts failed: " ++ m2), 3, 2⟩ := by
    unfold legacyTransferFile
    rw [legacyTransferGo_step_retry attempts copyOk copyErr 3 2 0 0 0 m0
      (by decide) (by decide) h0]
    rw [legacyTransferGo_step_retry attempts copyOk copyErr 3 1 1 1 1 m1
      (by decide) (by decide) h1]
    rw [legacyTransferGo_final_perm attempts copyOk copyErr 3 0 2 2 2 m2
      (by decide) (by decide) h2 hm2]
  refine ⟨"All transfer attempts failed: " ++ m2, hrun, ?_, ?_⟩
  · exact strMentions_append_right _ _ _ hm2
  · rw [hrun]
    rfl

/-- C2 witness: the amended behaviour on the all-permission-denied trace. -/
theorem permission_denied_behaviour_witness :
    (legacyWorkerTransferStatus (legacyTransferFile permDeniedTrace false "x")).1
      = QStatus.failed
    ∧ (legacyTransferFile permDeniedTrace false "x").sleeps = 2 := by
  obtain ⟨msg, hrun, hmm, hst⟩ := permission_denied_behaviour permDeniedTrace false "x"
    (fun i _ => ⟨"Permission denied", rfl, by decide⟩)
  constructor
  · rw [hst]
  · rw [hrun]

/-! ## Admission scheduler
(`processor-service/app/services/query_executor.py`,
`QueryExecutor.process_queries`, lines 74-191).

One tick: fetch pending rows joined with settings, group them by user
(`defaultdict(list)`, insertion order), compute
`available_slots = max(0, max_total - total_running)`, then repeatedly
pass over the users admitting at most one query per user per pass.

Line 105 (`for query, settings in pending_queries:`) rebinds the module
name `settings` to a `UserSettings` row, so the fallback
`settings.DEFAULT_MAX_PARALLEL_QUERIES` on line 130 raises
`AttributeError` whenever `max_parallel_queries` is falsy (`None` or 0);
the exception is caught by the tick-level `except` (line 187).  The model
makes this an explicit abort. -/

abbrev PendingPair := QueryRow × SettingsRow

/-- Append `x` to user `u`'s bucket, creating the bucket at the end on
first occurrence (`defaultdict(list)` in dict insertion order). -/
def insertGroup (acc : List (Nat × List PendingPair)) (u : Nat) (x : PendingPair) :
    List (Nat × List PendingPair) :=
  match acc with
  | [] => [(u, [x])]
  | (v, xs) :: rest =>
    if v = u then (v, xs ++ [x]) :: rest else (v, xs) :: insertGroup rest u x

/-- Lines 104-106: group the fetched rows by `query.user_id`. -/
def groupByUser (l : List PendingPair) : List (Nat × List PendingPair) :=
  l.foldl (fun acc p => insertGroup acc p.1.userId p) []

/-- First-match association lookup (dict access; absent key → `[]`). -/
def glookup (gs : List (Nat × List PendingPair)) (u : Nat) : List PendingPair :=
  match gs with
  | [] => []
  | (v, xs) :: rest => if v = u then xs else glookup rest u

/-- The scheduler's in-memory sets: `self.active_queries` keys (insertion
order) and `self.user_active_queries`. -/
structure SchedState where
  activeQueries : List Nat
  userActive : List (Nat × List Nat)
  deriving DecidableEq, Repr

/-- `len(self.user_active_queries[u])` (reading; the defaultdict's
entry-creating side effect is unobservable through counts). -/
def uaCount (ua : List (Nat × List Nat)) (u : Nat) : Nat :=
  match ua with
  | [] => 0
  | (v, xs) :: rest => if v = u then xs.length else uaCount rest u

/-- `self.user_active_queries[u].add(qid)`. -/
def uaAdd (ua : List (Nat × List Nat)) (u : Nat) (qid : Nat) :
    List (Nat × List Nat) :=
  match ua with
  | [] => [(u, [qid])]
  | (v, xs) :: rest =>
    if v = u then (v, xs ++ [qid]) :: rest else (v, xs) :: uaAdd rest u qid

/-- `sum(len(queries) for queries in self.user_active_queries.values())`. -/
def uaTotal (ua : List (Nat × List Nat)) : Nat :=
  (ua.map fun p => p.2.length).sum

/-- Line 130: `user_queries[0][1].max_parallel_queries or
settings.DEFAULT_MAX_PARALLEL_QUERIES`.  A truthy value is the limit;
a falsy one (`None` or 0) evaluates `settings.DEFAULT_MAX_PARALLEL_QUERIES`
on the rebound `UserSettings` object, raising `AttributeError` (`none`). -/
def pyUserLimit (s : SettingsRow) : Option Nat :=
  match s.maxParallelQueries with
  | some n => if n = 0 then none else some n
  | none => none

/-- Mutable state of the admission loop. -/
structure PassState where
  exec : SchedState
  startedCount : Nat
  admitted : List (Nat × Nat)
  startedAny : Bool
  deriving DecidableEq, Repr

/-- Result of one pass over the users: either the `AttributeError` abort
(line 130) or normal completion (list exhausted or the line 166 break). -/
inductive PassOut
  | aborted (groups : List (Nat × List PendingPair)) (s : PassState)
  | fin (groups : List (Nat × List PendingPair)) (s : PassState)
  deriving Repr

/-- Re-attach a processed bucket in front of the remaining groups. -/
def consGroup (u : Nat) (q : List PendingPair) : PassOut → PassOut
  | PassOut.aborted gs s => PassOut.aborted ((u, q) :: gs) s
  | PassOut.fin gs s => PassOut.fin ((u, q) :: gs) s

/-- Lines 124-167: one pass of
`for user_id, user_queries in list(user_pending_queries.items())`. -/
def runPass (available : Nat) :
    List (Nat × List PendingPair) → PassState → PassOut
  | [], s => PassOut.fin [] s
  | (u, uq) :: gs, s =>
    match uq with
    | [] => consGroup u [] (runPass available gs s)
    | (q, st) :: rest =>
      match pyUserLimit st with
      | none => PassOut.aborted ((u, uq) :: gs) s
      | some limit =>
        if uaCount s.exec.userActive u < limit then
          if q.qid ∈ s.exec.activeQueries then
            consGroup u rest (runPass available gs s)
          else
            let s' : PassState :=
              { exec := { activeQueries := s.exec.activeQueries ++ [q.qid],
                          userActive := uaAdd s.exec.userActive u q.qid },
                startedCount := s.startedCount + 1,
                admitted := s.admitted ++ [(q.qid, u)],
                startedAny := true }
            if available ≤ s'.startedCount then PassOut.fin ((u, rest) :: gs) s'
            else consGroup u rest (runPass available gs s')
        else consGroup u uq (runPass available gs s)

/-- Tick result: abort (exception reached the tick-level handler) or
normal completion. -/
inductive TickOut
  | aborted (groups : List (Nat × List PendingPair)) (s : PassState)
  | ok (groups : List (Nat × List PendingPair)) (s : PassState)
  deriving Repr

/-- Lines 121-171: `while available_slots > started_count` around the
passes; a pass admitting nothing ends the loop.  `fuel` bounds the loop
and is instantiated with `available + 1`, which the progress argument
(every continuing pass strictly increases `started_count`, which is
bounded by `available`) makes exact. -/
def admitLoop (available : Nat) :
    Nat → List (Nat × List PendingPair) → PassState → TickOut
  | 0, gs, s => TickOut.ok gs s
  | fuel + 1, gs, s =>
    if s.startedCount < available then
      match runPass available gs { s with startedAny := false } with
      | PassOut.aborted gs' s' => TickOut.aborted gs' s'
      | PassOut.fin gs' s' =>
        if s'.startedAny then admitLoop available fuel gs' s'
        else TickOut.ok gs' s'
    else TickOut.ok gs s

/-- One scheduler tick body (lines 100-171 with the fetch already done):
group the pending rows, compute available slots, admit. -/
def runTick (maxTotal : Nat) (exec : SchedState) (pending : List PendingPair) :
    TickOut :=
  if 0 < maxTotal - uaTotal exec.userActive then
    admitLoop (maxTotal - uaTotal exec.userActive)
      (maxTotal - uaTotal exec.userActive + 1) (groupByUser pending)
      { exec := exec, startedCount := 0, admitted := [], startedAny := false }
  else
    TickOut.ok (groupByUser pending)
      { exec := exec, startedCount := 0, admitted := [], startedAny := false }

/-- The state carried by a tick outcome. -/
def tickOutState : TickOut → PassState
  | TickOut.aborted _ s => s
  | TickOut.ok _ s => s

/-- The groups carried by a tick outcome. -/
def tickOutGroups : TickOut → List (Nat × List PendingPair)
  | TickOut.aborted gs _ => gs
  | TickOut.ok gs _ => gs

/-- The state carried by a pass outcome. -/
def passOutState : PassOut → PassState
  | PassOut.aborted _ s => s
  | PassOut.fin _ s => s

/-- The groups carried by a pass outcome. -/
def passOutGroups : PassOut → List (Nat × List PendingPair)
  | PassOut.aborted gs _ => gs
  | PassOut.fin gs _ => gs

/-- Lines 79-191: the tick-level `try/except` — an exception inside the
tick is logged and absorbed, the loop sleeps `check_interval` and runs the
next tick with the in-memory sets as the exception left them. -/
def runTickCaught (maxTotal : Nat) (exec : SchedState)
    (pending : List PendingPair) : SchedState :=
  (tickOutState (runTick maxTotal exec pending)).exec

/-! ### Bookkeeping lemmas for the in-memory sets -/

theorem uaAdd_cons (x : Nat × List Nat) (rest : List (Nat × List Nat))
    (u qid : Nat) :
    uaAdd (x :: rest) u qid
      = if x.1 = u then (x.1, x.2 ++ [qid]) :: rest
        else (x.1, x.2) :: uaAdd rest u qid := rfl

theorem uaCount_cons (x : Nat × List Nat) (rest : List (Nat × List Nat))
    (v : Nat) :
    uaCount (x :: rest) v = if x.1 = v then x.2.length else uaCount rest v := rfl

theorem uaTotal_cons (x : Nat × List Nat) (rest : List (Nat × List Nat)) :
    uaTotal (x :: rest) = x.2.length + uaTotal rest := by
  simp [uaTotal]

theorem uaTotal_uaAdd (ua : List (Nat × List Nat)) (u qid : Nat) :
    uaTotal (uaAdd ua u qid) = uaTotal ua + 1 := by
  induction ua with
  | nil => rfl
  | cons x rest ih =>
    rw [uaAdd_cons]
    by_cases h : x.1 = u
    · rw [if_pos h, uaTotal_cons, uaTotal_cons]
      have h2 : (x.1, x.2 ++ [qid]).2.length = x.2.length + 1 := by simp
      omega
    · rw [if_neg h, uaTotal_cons, uaTotal_cons, ih]
      have h2 : (x.1, x.2).2.length = x.2.length := rfl
      omega

theorem uaCount_uaAdd_self (ua : List (Nat × List Nat)) (u qid : Nat) :
    uaCount (uaAdd ua u qid) u = uaCount ua u + 1 := by
  induction ua with
  | nil => simp [uaAdd, uaCount]
  | cons x rest ih =>
    rw [uaAdd_cons]
    by_cases h : x.1 = u
    · rw [if_pos h, uaCount_cons, uaCount_cons, if_pos h, if_pos h]
      simp
    · rw [if_neg h, uaCount_cons, uaCount_cons, if_neg h, if_neg h, ih]

theorem uaCount_uaAdd_other (ua : List (Nat × List Nat)) (u qid v : Nat)
    (huv : v ≠ u) : uaCount (uaAdd ua u qid) v = uaCount ua v := by
  have huv' : ¬ u = v := fun h => huv h.symm
  induction ua with
  | nil => simp [uaAdd, uaCount, huv']
  | cons x rest ih =>
    rw [uaAdd_cons]
    by_cases h : x.1 = u
    · have hxv : ¬ x.1 = v := by rw [h]; exact huv'
      rw [if_pos h, uaCount_cons, uaCount_cons, if_neg hxv, if_neg hxv]
    · rw [if_neg h]
      by_cases hv : x.1 = v
      · rw [uaCount_cons, uaCount_cons, if_pos hv, if_pos hv]
      · rw [uaCount_cons, uaCount_cons, if_neg hv, if_neg hv, ih]

/-! ### Grouping lemmas -/

theorem insertGroup_prop (P : PendingPair → Nat → Prop)
    (acc : List (Nat × List PendingPair)) (u : Nat) (x : PendingPair)
    (hacc : ∀ gu ∈ acc, ∀ p ∈ gu.2, P p gu.1) (hx : P x u) :
    ∀ gu ∈ insertGroup acc u x, ∀ p ∈ gu.2, P p gu.1 := by
  induction acc with
  | nil =>
    intro gu hgu p hp
    simp only [insertGroup, List.mem_singleton] at hgu
    subst hgu
    simp only [List.mem_singleton] at hp
    subst hp
    exact hx
  | cons g rest ih =>
    intro gu hgu p hp
    rw [show insertGroup (g :: rest) u x
        = if g.1 = u then (g.1, g.2 ++ [x]) :: rest
          else (g.1, g.2) :: insertGroup rest u x from rfl] at hgu
    by_cases h : g.1 = u
    · rw [if_pos h] at hgu
      rcases List.mem_cons.mp hgu with h1 | h1
      · subst h1
        rcases List.mem_append.mp hp with h2 | h2
        · exact hacc g (List.mem_cons_self _ _) p h2
        · simp only [List.mem_singleton] at h2
          subst h2
          rw [show (g.1, g.2 ++ [p]).1 = g.1 from rfl, h]
          exact hx
      · exact hacc gu (List.mem_cons_of_mem _ h1) p hp
    · rw [if_neg h] at hgu
      rcases List.mem_cons.mp hgu with h1 | h1
      · subst h1
        exact hacc g (List.mem_cons_self _ _) p hp
      · exact ih (fun g' hg' => hacc g' (List.mem_cons_of_mem _ hg')) gu h1 p hp

theorem groupByUser_prop (P : PendingPair → Nat → Prop) (l : List PendingPair)
    (hl : ∀ p ∈ l, P p p.1.userId) :
    ∀ gu ∈ groupByUser l, ∀ p ∈ gu.2, P p gu.1 := by
  suffices h : ∀ (acc : List (Nat × List PendingPair)),
      (∀ gu ∈ acc, ∀ p ∈ gu.2, P p gu.1) →
      (∀ p ∈ l, P p p.1.userId) →
      ∀ gu ∈ l.foldl (fun acc p => insertGroup acc p.1.userId p) acc,
        ∀ p ∈ gu.2, P p gu.1 by
    exact h [] (fun gu hgu => absurd hgu (List.not_mem_nil gu)) hl
  clear hl
  induction l with
  | nil => intro acc hacc _; exact hacc
  | cons x xs ih =>
    intro acc hacc hl
    simp only [List.foldl_cons]
    exact ih (insertGroup acc x.1.userId x)
      (insertGroup_prop P acc x.1.userId x hacc (hl x (List.mem_cons_self _ _)))
      (fun p hp => hl p (List.mem_cons_of_mem _ hp))

theorem pyUserLimit_some (st : SettingsRow) (limit : Nat)
    (h : pyUserLimit st = some limit) : st.maxParallelQueries = some limit := by
  unfold pyUserLimit at h
  rcases hmp : st.maxParallelQueries with _ | n <;> rw [hmp] at h
  · simp at h
  · by_cases hn : n = 0 <;> simp [hn] at h
    rw [h]

/-! ### Cap compliance (C3) -/

/-- The claim's notion of a user's limit: `max_parallel_queries` when set,
otherwise `default_user_max_parallel`. -/
def limitSpec (defaultMax : Nat) (msetting : Nat → Option Nat) (u : Nat) : Nat :=
  (msetting u).getD defaultMax

/-- Every settings row carried in a user's bucket belongs to that user. -/
def GroupsOK (msetting : Nat → Option Nat)
    (gs : List (Nat × List PendingPair)) : Prop :=
  ∀ gu ∈ gs, ∀ p ∈ gu.2, p.2.maxParallelQueries = msetting gu.1

theorem passOutState_consGroup (u : Nat) (q : List PendingPair) (out : PassOut) :
    passOutState (consGroup u q out) = passOutState out := by
  cases out <;> rfl

theorem passOutGroups_consGroup (u : Nat) (q : List PendingPair) (out : PassOut) :
    passOutGroups (consGroup u q out) = (u, q) :: passOutGroups out := by
  cases out <;> rfl

/-- The admission state produced by starting query `q` of user `u`
(lines 143-162 of `process_queries`). -/
def admitStep (s : PassState) (u qid : Nat) : PassState :=
  { exec := { activeQueries := s.exec.activeQueries ++ [qid],
              userActive := uaAdd s.exec.userActive u qid },
    startedCount := s.startedCount + 1,
    admitted := s.admitted ++ [(qid, u)],
    startedAny := true }

/-- One-group unfolding of `runPass`, with the admission state spelled via
`admitStep` (definitionally equal to the `let` in `runPass`). -/
theorem runPass_cons (available u : Nat) (q : QueryRow) (st : SettingsRow)
    (rest : List PendingPair) (gs : List (Nat × List PendingPair))
    (s : PassState) :
    runPass available ((u, (q, st) :: rest) :: gs) s
      = match pyUserLimit st with
        | none => PassOut.aborted ((u, (q, st) :: rest) :: gs) s
        | some limit =>
          if uaCount s.exec.userActive u < limit then
            if q.qid ∈ s.exec.activeQueries then
              consGroup u rest (runPass available gs s)
            else
              if available ≤ s.startedCount + 1 then
                PassOut.fin ((u, rest) :: gs) (admitStep s u q.qid)
              else consGroup u rest (runPass available gs (admitStep s u q.qid))
          else consGroup u ((q, st) :: rest) (runPass available gs s) := rfl

theorem runPass_cons_none (available u : Nat) (q : QueryRow) (st : SettingsRow)
    (rest : List PendingPair) (gs : List (Nat × List PendingPair))
    (s : PassState) (hlim : pyUserLimit st = none) :
    runPass available ((u, (q, st) :: rest) :: gs) s
      = PassOut.aborted ((u, (q, st) :: rest) :: gs) s := by
  rw [runPass_cons, hlim]

theorem runPass_cons_some (available u : Nat) (q : QueryRow) (st : SettingsRow)
    (rest : List PendingPair) (gs : List (Nat × List PendingPair))
    (s : PassState) (limit : Nat) (hlim : pyUserLimit st = some limit) :
    runPass available ((u, (q, st) :: rest) :: gs) s
      = (if uaCount s.exec.userActive u < limit then
          if q.qid ∈ s.exec.activeQueries then
            consGroup u rest (runPass available gs s)
          else
            if available ≤ s.startedCount + 1 then
              PassOut.fin ((u, rest) :: gs) (admitStep s u q.qid)
            else consGroup u rest (runPass available gs (admitStep s u q.qid))
        else consGroup u ((q, st) :: rest) (runPass available gs s)) := by
  rw [runPass_cons, hlim]

theorem runPass_caps (available defaultMax : Nat) (msetting : Nat → Option Nat) :
    ∀ (gs : List (Nat × List PendingPair)) (s : PassState),
    GroupsOK msetting gs →
    s.startedCount < available →
    (∀ u, uaCount s.exec.userActive u ≤ limitSpec defaultMax msetting u) →
    (∀ u, uaCount (passOutState (runPass available gs s)).exec.userActive u
        ≤ limitSpec defaultMax msetting u)
    ∧ uaTotal (passOutState (runPass available gs s)).exec.userActive
        + s.startedCount
      = uaTotal s.exec.userActive
        + (passOutState (runPass available gs s)).startedCount
    ∧ s.startedCount ≤ (passOutState (runPass available gs s)).startedCount
    ∧ (passOutState (runPass available gs s)).startedCount ≤ available
    ∧ ((passOutState (runPass available gs s)).startedAny = true →
        s.startedAny = true
        ∨ s.startedCount < (passOutState (runPass available gs s)).startedCount)
    ∧ GroupsOK msetting (passOutGroups (runPass available gs s)) := by
  intro gs
  induction gs with
  | nil =>
    intro s hg hstart huser
    exact ⟨huser, rfl, Nat.le_refl _, Nat.le_of_lt hstart, fun h => Or.inl h,
      fun gu hgu => absurd hgu (List.not_mem_nil gu)⟩
  | cons g gs ih =>
    intro s hg hstart huser
    obtain ⟨u, uq⟩ := g
    have hgtail : GroupsOK msetting gs :=
      fun gu hgu => hg gu (List.mem_cons_of_mem _ hgu)
    match uq with
    | [] =>
      rw [show runPass available ((u, []) :: gs) s
          = consGroup u [] (runPass available gs s) from rfl,
        passOutState_consGroup, passOutGroups_consGroup]
      have this := ih s hgtail hstart huser
      refine ⟨this.1, this.2.1, this.2.2.1, this.2.2.2.1, this.2.2.2.2.1, ?_⟩
      intro gu hgu p hp
      rcases List.mem_cons.mp hgu with h1 | h1
      · subst h1; cases hp
      · exact this.2.2.2.2.2 gu h1 p hp
    | (q, st) :: rest =>
      have hheadOK : ∀ p ∈ (q, st) :: rest, p.2.maxParallelQueries = msetting u :=
        hg (u, (q, st) :: rest) (List.mem_cons_self _ _)
      have hstOK : st.maxParallelQueries = msetting u :=
        hheadOK (q, st) (List.mem_cons_self _ _)
      rcases hlim : pyUserLimit st with _ | limit
      · rw [runPass_cons_none _ _ _ _ _ _ _ hlim]
        exact ⟨huser, rfl, Nat.le_refl _, Nat.le_of_lt hstart,
          fun h => Or.inl h, hg⟩
      · rw [runPass_cons_some _ _ _ _ _ _ _ _ hlim]
        have hlimitSpec : limitSpec defaultMax msetting u = limit := by
          unfold limitSpec
          rw [← hstOK, pyUserLimit_some st limit hlim]
          rfl
        by_cases hcnt : uaCount s.exec.userActive u < limit
        · rw [if_pos hcnt]
          by_cases hmem : q.qid ∈ s.exec.activeQueries
          · rw [if_pos hmem, passOutState_consGroup, passOutGroups_consGroup]
            have this := ih s hgtail hstart huser
            refine ⟨this.1, this.2.1, this.2.2.1, this.2.2.2.1,
              this.2.2.2.2.1, ?_⟩
            intro gu hgu p hp
            rcases List.mem_cons.mp hgu with h1 | h1
            · subst h1
              exact hheadOK p (List.mem_cons_of_mem _ hp)
            · exact this.2.2.2.2.2 gu h1 p hp
          · rw [if_neg hmem]
            have huser' : ∀ v, uaCount (admitStep s u q.qid).exec.userActive v
                ≤ limitSpec defaultMax msetting v := by
              intro v
              by_cases hv : v = u
              · subst hv
                show uaCount (uaAdd s.exec.userActive v q.qid) v ≤ _
                rw [uaCount_uaAdd_self, hlimitSpec]
                omega
              · show uaCount (uaAdd s.exec.userActive u q.qid) v ≤ _
                rw [uaCount_uaAdd_other _ _ _ _ hv]
                exact huser v
            have htot' : uaTotal (admitStep s u q.qid).exec.userActive
                = uaTotal s.exec.userActive + 1 := uaTotal_uaAdd _ _ _
            have hsc : (admitStep s u q.qid).startedCount
                = s.startedCount + 1 := rfl
            have hrestOK : GroupsOK msetting ((u, rest) :: gs) := by
              intro gu hgu p hp
              rcases List.mem_cons.mp hgu with h1 | h1
              · subst h1
                exact hheadOK p (List.mem_cons_of_mem _ hp)
              · exact hgtail gu h1 p hp
            by_cases hbreak : available ≤ s.startedCount + 1
            · rw [if_pos hbreak]
              simp only [passOutState, passOutGroups]
              refine ⟨huser', ?_, ?_, ?_, fun _ => Or.inr ?_, hrestOK⟩
              · rw [htot', hsc]; omega
              · rw [hsc]; omega
              · rw [hsc]; omega
              · rw [hsc]; omega
            · rw [if_neg hbreak]
              rw [passOutState_consGroup, passOutGroups_consGroup]
              have hstart' : (admitStep s u q.qid).startedCount < available := by
                rw [hsc]; omega
              have this := ih (admitStep s u q.qid) hgtail hstart' huser'
              have h21 := this.2.1
              have h221 := this.2.2.1
              rw [htot', hsc] at h21
              rw [hsc] at h221
              refine ⟨this.1, by omega, by omega, this.2.2.2.1,
                fun _ => Or.inr (by omega), ?_⟩
              intro gu hgu p hp
              rcases List.mem_cons.mp hgu with h1 | h1
              · subst h1
                exact hheadOK p (List.mem_cons_of_mem _ hp)
              · exact this.2.2.2.2.2 gu h1 p hp
        · rw [if_neg hcnt, passOutState_consGroup, passOutGroups_consGroup]
          have this := ih s hgtail hstart huser
          refine ⟨this.1, this.2.1, this.2.2.1, this.2.2.2.1,
            this.2.2.2.2.1, ?_⟩
          intro gu hgu p hp
          rcases List.mem_cons.mp hgu with h1 | h1
          · subst h1
            exact hheadOK p hp
          · exact this.2.2.2.2.2 gu h1 p hp

theorem admitLoop_unfold (available fuel : Nat)
    (gs : List (Nat × List PendingPair)) (s : PassState) :
    admitLoop available (fuel + 1) gs s
      = (if s.startedCount < available then
          match runPass available gs { s with startedAny := false } with
          | PassOut.aborted gs' s' => TickOut.aborted gs' s'
          | PassOut.fin gs' s' =>
            if s'.startedAny then admitLoop available fuel gs' s'
            else TickOut.ok gs' s'
        else TickOut.ok gs s) := rfl

theorem admitLoop_step_aborted (available fuel : Nat)
    (gs gs1 : List (Nat × List PendingPair)) (s s1 : PassState)
    (hlt : s.startedCount < available)
    (h : runPass available gs { s with startedAny := false }
      = PassOut.aborted gs1 s1) :
    admitLoop available (fuel + 1) gs s = TickOut.aborted gs1 s1 := by
  rw [admitLoop_unfold, if_pos hlt, h]

theorem admitLoop_step_fin (available fuel : Nat)
    (gs gs1 : List (Nat × List PendingPair)) (s s1 : PassState)
    (hlt : s.startedCount < available)
    (h : runPass available gs { s with startedAny := false }
      = PassOut.fin gs1 s1) :
    admitLoop available (fuel + 1) gs s
      = (if s1.startedAny then admitLoop available fuel gs1 s1
         else TickOut.ok gs1 s1) := by
  rw [admitLoop_unfold, if_pos hlt, h]

theorem admitLoop_stop (available fuel : Nat)
    (gs : List (Nat × List PendingPair)) (s : PassState)
    (hlt : ¬ s.startedCount < available) :
    admitLoop available (fuel + 1) gs s = TickOut.ok gs s := by
  rw [admitLoop_unfold, if_neg hlt]

theorem admitLoop_caps (available defaultMax total0 : Nat)
    (msetting : Nat → Option Nat) :
    ∀ (fuel : Nat) (gs : List (Nat × List PendingPair)) (s : PassState),
    GroupsOK msetting gs →
    (∀ u, uaCount s.exec.userActive u ≤ limitSpec defaultMax msetting u) →
    uaTotal s.exec.userActive = total0 + s.startedCount →
    s.startedCount ≤ available →
    (∀ u, uaCount (tickOutState (admitLoop available fuel gs s)).exec.userActive u
        ≤ limitSpec defaultMax msetting u)
    ∧ uaTotal (tickOutState (admitLoop available fuel gs s)).exec.userActive
        = total0 + (tickOutState (admitLoop available fuel gs s)).startedCount
    ∧ (tickOutState (admitLoop available fuel gs s)).startedCount ≤ available := by
  intro fuel
  induction fuel with
  | zero =>
    intro gs s hg huser htot hsc
    exact ⟨huser, htot, hsc⟩
  | succ fuel ih =>
    intro gs s hg huser htot hsc
    by_cases hlt : s.startedCount < available
    · have hrp := runPass_caps available defaultMax msetting gs
        { s with startedAny := false } hg hlt huser
      rcases hout : runPass available gs { s with startedAny := false }
        with ⟨gs1, s1⟩ | ⟨gs1, s1⟩
      · rw [admitLoop_step_aborted available fuel gs gs1 s s1 hlt hout]
        rw [hout] at hrp
        simp only [passOutState, passOutGroups] at hrp
        simp only [tickOutState]
        refine ⟨hrp.1, ?_, hrp.2.2.2.1⟩
        have h2 := hrp.2.1
        omega
      · rw [admitLoop_step_fin available fuel gs gs1 s s1 hlt hout]
        rw [hout] at hrp
        simp only [passOutState, passOutGroups] at hrp
        by_cases hany : s1.startedAny
        · rw [if_pos hany]
          have htot2 : uaTotal s1.exec.userActive = total0 + s1.startedCount := by
            have h2 := hrp.2.1
            omega
          exact ih gs1 s1 hrp.2.2.2.2.2 hrp.1 htot2 hrp.2.2.2.1
        · rw [if_neg hany]
          simp only [tickOutState]
          refine ⟨hrp.1, ?_, hrp.2.2.2.1⟩
          have h2 := hrp.2.1
          omega
    · rw [admitLoop_stop available fuel gs s hlt]
      exact ⟨huser, htot, hsc⟩

/-- C3: during and after a scheduler tick the in-memory admission sets
respect both caps — the total admitted count never exceeds
`global_max_parallel`, and each user's count never exceeds that user's
limit (`max_parallel_queries` when set, else `default_user_max_parallel`).
The invariant is proven inductively over every admission step of the tick,
and the stated outcome covers both a normally completed tick and one cut
short by the line 130 `AttributeError`. -/
theorem scheduler_cap_compliance (maxTotal defaultMax : Nat)
    (msetting : Nat → Option Nat) (exec : SchedState)
    (pending : List PendingPair)
    (hcoh : ∀ p ∈ pending, p.2.maxParallelQueries = msetting p.1.userId)
    (htot : uaTotal exec.userActive ≤ maxTotal)
    (huser : ∀ u, uaCount exec.userActive u ≤ limitSpec defaultMax msetting u) :
    uaTotal (tickOutState (runTick maxTotal exec pending)).exec.userActive
      ≤ maxTotal
    ∧ ∀ u, uaCount (tickOutState (runTick maxTotal exec pending)).exec.userActive u
        ≤ limitSpec defaultMax msetting u := by
  have hgroups : GroupsOK msetting (groupByUser pending) :=
    groupByUser_prop (fun p v => p.2.maxParallelQueries = msetting v) pending hcoh
  unfold runTick
  by_cases hav : 0 < maxTotal - uaTotal exec.userActive
  · rw [if_pos hav]
    have h := admitLoop_caps (maxTotal - uaTotal exec.userActive) defaultMax
      (uaTotal exec.userActive) msetting
      (maxTotal - uaTotal exec.userActive + 1) (groupByUser pending)
      { exec := exec, startedCount := 0, admitted := [], startedAny := false }
      hgroups huser rfl (Nat.zero_le _)
    refine ⟨?_, h.1⟩
    have h2 := h.2.1
    have h3 := h.2.2
    omega
  · rw [if_neg hav]
    exact ⟨htot, huser⟩

/-- A settings row with `max_parallel_queries = 1` for user `u`. -/
def settingsOne (u : Nat) : SettingsRow :=
  { userId := u, exportLocation := none, exportType := none,
    maxParallelQueries := some 1, sshHostname := none, sshPort := some 22,
    sshUsername := none, sshPassword := none, sshKey := none }

/-- Two pending queries of two users, each user limited to 1. -/
def pendingTwoUsers : List PendingPair :=
  [({ baseRow with qid := 21, userId := 1 }, settingsOne 1),
   ({ baseRow with qid := 22, userId := 2 }, settingsOne 2)]

/-- C3 witness: the cap invariant at a concrete tick. -/
theorem scheduler_cap_compliance_witness :
    uaTotal (tickOutState (runTick 2 ⟨[], []⟩ pendingTwoUsers)).exec.userActive ≤ 2
    ∧ ∀ u, uaCount
        (tickOutState (runTick 2 ⟨[], []⟩ pendingTwoUsers)).exec.userActive u
        ≤ limitSpec 3 (fun _ => some 1) u :=
  scheduler_cap_compliance 2 3 (fun _ => some 1) ⟨[], []⟩ pendingTwoUsers
    (by decide) (by decide) (fun u => Nat.zero_le _)

/-! ### The falsy-limit `AttributeError` (C10) -/

theorem pyUserLimit_falsy (st : SettingsRow)
    (h : st.maxParallelQueries = none ∨ st.maxParallelQueries = some 0) :
    pyUserLimit st = none := by
  unfold pyUserLimit
  rcases h with h | h
  · rw [h]
  · rw [h]
    rfl

/-- C10: on a tick with available capacity whose grouped pending list
starts with an admissible query of user `u1` followed by a query of user
`u2` whose `max_parallel_queries` is `None` or 0, the limit lookup for
`u2` raises (the name `settings` was rebound to a `UserSettings` row by
the grouping loop, which has no `DEFAULT_MAX_PARALLEL_QUERIES` attribute):
the tick aborts right there, `u1`'s query — admitted earlier in the same
tick — stays in both in-memory sets, no further query is admitted on the
tick, and the caught exception leaves the scheduler running (the next tick
starts from the exception-time state). -/
theorem falsy_limit_aborts_tick (maxTotal : Nat) (exec : SchedState)
    (pending : List PendingPair) (u1 u2 : Nat) (q1 q2 : QueryRow)
    (s1 s2 : SettingsRow) (r1 r2 : List PendingPair)
    (rest : List (Nat × List PendingPair)) (n1 : Nat)
    (hgroups : groupByUser pending
      = (u1, (q1, s1) :: r1) :: (u2, (q2, s2) :: r2) :: rest)
    (hs1 : pyUserLimit s1 = some n1)
    (hcnt : uaCount exec.userActive u1 < n1)
    (hmem : q1.qid ∉ exec.activeQueries)
    (hs2 : s2.maxParallelQueries = none ∨ s2.maxParallelQueries = some 0)
    (hav : 2 ≤ maxTotal - uaTotal exec.userActive) :
    runTick maxTotal exec pending
      = TickOut.aborted ((u1, r1) :: (u2, (q2, s2) :: r2) :: rest)
          (admitStep { exec := exec, startedCount := 0, admitted := [],
                       startedAny := false } u1 q1.qid)
    ∧ (tickOutState (runTick maxTotal exec pending)).admitted = [(q1.qid, u1)]
    ∧ (tickOutState (runTick maxTotal exec pending)).exec.activeQueries
        = exec.activeQueries ++ [q1.qid]
    ∧ uaCount (tickOutState (runTick maxTotal exec pending)).exec.userActive u1
        = uaCount exec.userActive u1 + 1
    ∧ runTickCaught maxTotal exec pending
        = (admitStep { exec := exec, startedCount := 0, admitted := [],
                       startedAny := false } u1 q1.qid).exec := by
  have hpass : runPass (maxTotal - uaTotal exec.userActive)
      ((u1, (q1, s1) :: r1) :: (u2, (q2, s2) :: r2) :: rest)
      { exec := exec, startedCount := 0, admitted := [], startedAny := false }
      = PassOut.aborted ((u1, r1) :: (u2, (q2, s2) :: r2) :: rest)
          (admitStep { exec := exec, startedCount := 0, admitted := [],
                       startedAny := false } u1 q1.qid) := by
    rw [runPass_cons_some _ _ _ _ _ _ _ _ hs1]
    rw [if_pos hcnt, if_neg hmem,
      if_neg (by omega : ¬ maxTotal - uaTotal exec.userActive ≤ 0 + 1)]
    rw [runPass_cons_none _ _ _ _ _ _ _ (pyUserLimit_falsy s2 hs2)]
    rfl
  have htick : runTick maxTotal exec pending
      = TickOut.aborted ((u1, r1) :: (u2, (q2, s2) :: r2) :: rest)
          (admitStep { exec := exec, startedCount := 0, admitted := [],
                       startedAny := false } u1 q1.qid) := by
    unfold runTick
    rw [if_pos (by omega : 0 < maxTotal - uaTotal exec.userActive), hgroups]
    exact admitLoop_step_aborted _ _ _ _ _ _
      (by show (0:Nat) < maxTotal - uaTotal exec.userActive; omega)
      (hgroups ▸ hpass)
  refine ⟨htick, ?_, ?_, ?_, ?_⟩
  · rw [htick]; rfl
  · rw [htick]; rfl
  · rw [htick]
    exact uaCount_uaAdd_self _ _ _
  · unfold runTickCaught
    rw [htick]
    rfl

/-- A settings row with `max_parallel_queries` unset for user `u`. -/
def settingsUnset (u : Nat) : SettingsRow :=
  { userId := u, exportLocation := none, exportType := none,
    maxParallelQueries := none, sshHostname := none, sshPort := some 22,
    sshUsername := none, sshPassword := none, sshKey := none }

/-- Pending rows of a limited user followed by a user with unset limit. -/
def pendingFalsyLimit : List PendingPair :=
  [({ baseRow with qid := 31, userId := 1 }, settingsOne 1),
   ({ baseRow with qid := 32, userId := 2 }, settingsUnset 2)]

/-- C10 witness: the abort behaviour at a concrete tick. -/
theorem falsy_limit_aborts_tick_witness :
    (tickOutState (runTick 50 ⟨[], []⟩ pendingFalsyLimit)).admitted = [(31, 1)]
    ∧ runTickCaught 50 ⟨[], []⟩ pendingFalsyLimit = ⟨[31], [(1, [31])]⟩ := by
  have h := falsy_limit_aborts_tick 50 ⟨[], []⟩ pendingFalsyLimit 1 2
    { baseRow with qid := 31, userId := 1 }
    { baseRow with qid := 32, userId := 2 }
    (settingsOne 1) (settingsUnset 2) [] [] [] 1
    (by rfl) (by rfl) (by decide) (by decide) (Or.inl rfl) (by decide)
  exact ⟨h.2.1, h.2.2.2.2.trans rfl⟩

/-! ### Per-user FIFO (C6): grouping characterisation -/

/-- Group keys, in dict insertion order. -/
def gkeys (gs : List (Nat × List PendingPair)) : List Nat := gs.map (·.1)

/-- All rows held across the buckets, in bucket order. -/
def allPairs (gs : List (Nat × List PendingPair)) : List PendingPair :=
  gs.flatMap (·.2)

/-- The query ids of a row list. -/
def pairQids (l : List PendingPair) : List Nat := l.map (·.1.qid)

theorem glookup_insertGroup (acc : List (Nat × List PendingPair))
    (u v : Nat) (x : PendingPair) :
    glookup (insertGroup acc v x) u
      = if v = u then glookup acc u ++ [x] else glookup acc u := by
  induction acc with
  | nil =>
    by_cases h : v = u <;> simp [insertGroup, glookup, h]
  | cons g rest ih =>
    rw [show insertGroup (g :: rest) v x
        = if g.1 = v then (g.1, g.2 ++ [x]) :: rest
          else (g.1, g.2) :: insertGroup rest v x from rfl]
    by_cases hgv : g.1 = v
    · rw [if_pos hgv]
      by_cases hvu : v = u
      · have hgu : g.1 = u := hgv.trans hvu
        rw [if_pos hvu]
        rw [show glookup ((g.1, g.2 ++ [x]) :: rest) u
            = if g.1 = u then g.2 ++ [x] else glookup rest u from rfl,
          if_pos hgu]
        rw [show glookup (g :: rest) u
            = if g.1 = u then g.2 else glookup rest u from rfl, if_pos hgu]
      · have hgu : ¬ g.1 = u := fun h => hvu (hgv ▸ h)
        rw [if_neg hvu]
        rw [show glookup ((g.1, g.2 ++ [x]) :: rest) u
            = if g.1 = u then g.2 ++ [x] else glookup rest u from rfl,
          if_neg hgu]
        rw [show glookup (g :: rest) u
            = if g.1 = u then g.2 else glookup rest u from rfl, if_neg hgu]
    · rw [if_neg hgv]
      by_cases hgu : g.1 = u
      · have hvu : ¬ v = u := fun h => hgv (h ▸ hgu)
        rw [if_neg hvu]
        rw [show glookup ((g.1, g.2) :: insertGroup rest v x) u
            = if g.1 = u then g.2 else glookup (insertGroup rest v x) u from rfl,
          if_pos hgu]
        rw [show glookup (g :: rest) u
            = if g.1 = u then g.2 else glookup rest u from rfl, if_pos hgu]
      · rw [show glookup ((g.1, g.2) :: insertGroup rest v x) u
            = if g.1 = u then g.2 else glookup (insertGroup rest v x) u from rfl,
          if_neg hgu]
        rw [show glookup (g :: rest) u
            = if g.1 = u then g.2 else glookup rest u from rfl, if_neg hgu]
        exact ih

theorem glookup_groupByUser (l : List PendingPair) (u : Nat) :
    glookup (groupByUser l) u = l.filter fun p => p.1.userId == u := by
  suffices h : ∀ acc : List (Nat × List PendingPair),
      glookup (l.foldl (fun acc p => insertGroup acc p.1.userId p) acc) u
        = glookup acc u ++ l.filter (fun p => p.1.userId == u) by
    have h2 := h []
    rw [show glookup ([] : List (Nat × List PendingPair)) u = [] from rfl,
      List.nil_append] at h2
    exact h2
  induction l with
  | nil => intro acc; simp
  | cons x xs ih =>
    intro acc
    simp only [List.foldl_cons, List.filter_cons]
    by_cases h : x.1.userId = u
    · rw [if_pos (by simpa using h)]
      rw [ih (insertGroup acc x.1.userId x), glookup_insertGroup, if_pos h]
      simp
    · rw [if_neg (by simpa using h)]
      rw [ih (insertGroup acc x.1.userId x), glookup_insertGroup, if_neg h]

theorem gkeys_insertGroup (acc : List (Nat × List PendingPair))
    (v : Nat) (x : PendingPair) :
    gkeys (insertGroup acc v x)
      = if v ∈ gkeys acc then gkeys acc else gkeys acc ++ [v] := by
  induction acc with
  | nil => simp [insertGroup, gkeys]
  | cons g rest ih =>
    rw [show insertGroup (g :: rest) v x
        = if g.1 = v then (g.1, g.2 ++ [x]) :: rest
          else (g.1, g.2) :: insertGroup rest v x from rfl]
    by_cases hgv : g.1 = v
    · rw [if_pos hgv, if_pos (by rw [← hgv]; exact List.mem_cons_self _ _)]
      rfl
    · rw [if_neg hgv]
      have hmm : (v ∈ gkeys (g :: rest)) = (v ∈ gkeys rest) := by
        simp only [gkeys, List.map_cons, List.mem_cons]
        have : ¬ v = g.1 := fun h => hgv h.symm
        simp [this]
      by_cases hv : v ∈ gkeys rest
      · rw [if_pos (by rw [hmm]; exact hv)]
        show g.1 :: gkeys (insertGroup rest v x) = gkeys (g :: rest)
        rw [ih, if_pos hv]
        rfl
      · rw [if_neg (by rw [hmm]; exact hv)]
        show g.1 :: gkeys (insertGroup rest v x) = gkeys (g :: rest) ++ [v]
        rw [ih, if_neg hv]
        rfl

theorem gkeys_groupByUser_nodup (l : List PendingPair) :
    (gkeys (groupByUser l)).Nodup := by
  suffices h : ∀ acc : List (Nat × List PendingPair), (gkeys acc).Nodup →
      (gkeys (l.foldl (fun acc p => insertGroup acc p.1.userId p) acc)).Nodup by
    exact h [] List.nodup_nil
  induction l with
  | nil => intro acc hacc; exact hacc
  | cons x xs ih =>
    intro acc hacc
    simp only [List.foldl_cons]
    refine ih (insertGroup acc x.1.userId x) ?_
    rw [gkeys_insertGroup]
    by_cases h : x.1.userId ∈ gkeys acc
    · rw [if_pos h]; exact hacc
    · rw [if_neg h]
      rw [List.nodup_append]
      exact ⟨hacc, List.nodup_singleton _, by simpa using h⟩

theorem allPairs_insertGroup (acc : List (Nat × List PendingPair))
    (v : Nat) (x : PendingPair) :
    List.Perm (allPairs (insertGroup acc v x)) (allPairs acc ++ [x]) := by
  induction acc with
  | nil => simp [insertGroup, allPairs]
  | cons g rest ih =>
    rw [show insertGroup (g :: rest) v x
        = if g.1 = v then (g.1, g.2 ++ [x]) :: rest
          else (g.1, g.2) :: insertGroup rest v x from rfl]
    by_cases hgv : g.1 = v
    · rw [if_pos hgv]
      show List.Perm ((g.2 ++ [x]) ++ allPairs rest) ((g.2 ++ allPairs rest) ++ [x])
      have h1 : (g.2 ++ [x]) ++ allPairs rest = g.2 ++ ([x] ++ allPairs rest) := by
        rw [List.append_assoc]
      have h2 : List.Perm (g.2 ++ ([x] ++ allPairs rest))
          (g.2 ++ (allPairs rest ++ [x])) :=
        List.Perm.append_left g.2 List.perm_append_comm
      have h3 : g.2 ++ (allPairs rest ++ [x]) = (g.2 ++ allPairs rest) ++ [x] := by
        rw [List.append_assoc]
      rw [h1, ← h3] at *
      exact h2
    · rw [if_neg hgv]
      show List.Perm (g.2 ++ allPairs (insertGroup rest v x)) ((g.2 ++ allPairs rest) ++ [x])
      have h2 : List.Perm (g.2 ++ allPairs (insertGroup rest v x))
          (g.2 ++ (allPairs rest ++ [x])) :=
        List.Perm.append_left g.2 ih
      have h3 : g.2 ++ (allPairs rest ++ [x]) = (g.2 ++ allPairs rest) ++ [x] := by
        rw [List.append_assoc]
      rw [← h3]
      exact h2

theorem allPairs_groupByUser (l : List PendingPair) :
    List.Perm (allPairs (groupByUser l)) l := by
  suffices h : ∀ acc : List (Nat × List PendingPair),
      List.Perm (allPairs (l.foldl (fun acc p => insertGroup acc p.1.userId p) acc))
        (allPairs acc ++ l) by
    simpa using h []
  induction l with
  | nil => intro acc; simp
  | cons x xs ih =>
    intro acc
    simp only [List.foldl_cons]
    have h1 := ih (insertGroup acc x.1.userId x)
    have h2 : List.Perm (allPairs (insertGroup acc x.1.userId x) ++ xs)
        ((allPairs acc ++ [x]) ++ xs) :=
      (allPairs_insertGroup acc x.1.userId x).append_right xs
    have h3 : (allPairs acc ++ [x]) ++ xs = allPairs acc ++ (x :: xs) := by
      rw [List.append_assoc]
      rfl
    rw [← h3]
    exact h1.trans h2

/-! ### Per-user FIFO (C6): tracking the admissions of a tick -/

/-- The query ids admitted for user `u`, in admission order. -/
def admittedOf (adm : List (Nat × Nat)) (u : Nat) : List Nat :=
  (adm.filter fun a => a.2 == u).map (·.1)

/-- The query ids still queued in user `u`'s bucket. -/
def bucketQids (gs : List (Nat × List PendingPair)) (u : Nat) : List Nat :=
  (glookup gs u).map (·.1.qid)

/-- Sanity of the grouped pending rows against the active set: distinct
users, distinct query ids, and no id already admitted. -/
structure GroupsSane (gs : List (Nat × List PendingPair))
    (active : List Nat) : Prop where
  keysNodup : (gkeys gs).Nodup
  qidsNodup : (pairQids (allPairs gs)).Nodup
  fresh : ∀ p ∈ allPairs gs, p.1.qid ∉ active

theorem glookup_cons (g : Nat × List PendingPair)
    (rest : List (Nat × List PendingPair)) (u : Nat) :
    glookup (g :: rest) u = if g.1 = u then g.2 else glookup rest u := rfl

theorem admittedOf_append (adm1 adm2 : List (Nat × Nat)) (u : Nat) :
    admittedOf (adm1 ++ adm2) u = admittedOf adm1 u ++ admittedOf adm2 u := by
  simp [admittedOf, List.filter_append]

theorem admittedOf_eq_nil (adm : List (Nat × Nat)) (u : Nat)
    (h : ∀ a ∈ adm, ¬ a.2 = u) : admittedOf adm u = [] := by
  unfold admittedOf
  rw [List.filter_eq_nil_iff.mpr (by intro a ha; simpa using h a ha)]
  rfl

theorem pairQids_append (l1 l2 : List PendingPair) :
    pairQids (l1 ++ l2) = pairQids l1 ++ pairQids l2 := by
  simp [pairQids]

theorem allPairs_cons (g : Nat × List PendingPair)
    (rest : List (Nat × List PendingPair)) :
    allPairs (g :: rest) = g.2 ++ allPairs rest := by
  simp [allPairs]

theorem gkeys_cons (g : Nat × List PendingPair)
    (rest : List (Nat × List PendingPair)) :
    gkeys (g :: rest) = g.1 :: gkeys rest := rfl

/-- Composition step for a user whose bucket the pass leaves untouched. -/
theorem track_cons_same (u : Nat) (B : List PendingPair)
    (gs gs2 : List (Nat × List PendingPair)) (s s2 : PassState)
    (newAdm : List (Nat × Nat))
    (hSane : GroupsSane ((u, B) :: gs) s.exec.activeQueries)
    (hadm : s2.admitted = s.admitted ++ newAdm)
    (hact : s2.exec.activeQueries = s.exec.activeQueries ++ newAdm.map (·.1))
    (husers : ∀ a ∈ newAdm, a.2 ∈ gkeys gs)
    (hqids : ∀ a ∈ newAdm, a.1 ∈ pairQids (allPairs gs))
    (hbuckets : ∀ v, admittedOf newAdm v ++ bucketQids gs2 v = bucketQids gs v)
    (hkeys : gkeys gs2 = gkeys gs)
    (hsub : List.Sublist (allPairs gs2) (allPairs gs))
    (hSane2 : GroupsSane gs2 s2.exec.activeQueries) :
    s2.admitted = s.admitted ++ newAdm
    ∧ s2.exec.activeQueries = s.exec.activeQueries ++ newAdm.map (·.1)
    ∧ (∀ a ∈ newAdm, a.2 ∈ gkeys ((u, B) :: gs))
    ∧ (∀ a ∈ newAdm, a.1 ∈ pairQids (allPairs ((u, B) :: gs)))
    ∧ (∀ v, admittedOf newAdm v ++ bucketQids ((u, B) :: gs2) v
        = bucketQids ((u, B) :: gs) v)
    ∧ gkeys ((u, B) :: gs2) = gkeys ((u, B) :: gs)
    ∧ List.Sublist (allPairs ((u, B) :: gs2)) (allPairs ((u, B) :: gs))
    ∧ GroupsSane ((u, B) :: gs2) s2.exec.activeQueries := by
  have hkeysOrig : gkeys ((u, B) :: gs) = u :: gkeys gs := rfl
  have hu : u ∉ gkeys gs := by
    have := hSane.keysNodup
    rw [hkeysOrig] at this
    exact (List.nodup_cons.mp this).1
  have hAllOrig : allPairs ((u, B) :: gs) = B ++ allPairs gs := allPairs_cons _ _
  have hAllOut : allPairs ((u, B) :: gs2) = B ++ allPairs gs2 := allPairs_cons _ _
  have hQidsOrig : pairQids (allPairs ((u, B) :: gs))
      = pairQids B ++ pairQids (allPairs gs) := by
    rw [hAllOrig, pairQids_append]
  refine ⟨hadm, hact, ?_, ?_, ?_, ?_, ?_, ?_⟩
  · intro a ha
    rw [hkeysOrig]
    exact List.mem_cons_of_mem _ (husers a ha)
  · intro a ha
    rw [hQidsOrig]
    exact List.mem_append_right _ (hqids a ha)
  · intro v
    by_cases hv : u = v
    · subst hv
      rw [admittedOf_eq_nil newAdm u
        (fun a ha h => hu (h ▸ husers a ha)), List.nil_append]
      unfold bucketQids
      rw [glookup_cons, glookup_cons]
      rw [if_pos rfl, if_pos rfl]
    · unfold bucketQids
      rw [glookup_cons, glookup_cons, if_neg hv, if_neg hv]
      exact hbuckets v
  · rw [gkeys_cons, gkeys_cons, hkeys]
  · rw [hAllOrig, hAllOut]
    exact hsub.append_left B
  · constructor
    · rw [gkeys_cons, hkeys]
      exact hkeysOrig ▸ hSane.keysNodup
    · rw [hAllOut, pairQids_append]
      refine (hQidsOrig ▸ hSane.qidsNodup).sublist ?_
      exact List.Sublist.append_left (hsub.map _) _
    · intro p hp
      rw [hAllOut] at hp
      rcases List.mem_append.mp hp with hpB | hpGs2
      · rw [hact]
        intro hmem
        rcases List.mem_append.mp hmem with h1 | h2
        · exact hSane.fresh p (hAllOrig ▸ List.mem_append_left _ hpB) h1
        · obtain ⟨a, ha, haq⟩ := List.mem_map.mp h2
          have hdisj := List.disjoint_of_nodup_append
            (hQidsOrig ▸ hSane.qidsNodup)
          exact hdisj (List.mem_map.mpr ⟨p, hpB, rfl⟩) (haq ▸ hqids a ha)
      · exact hSane2.fresh p hpGs2

/-- Composition step for the user at the head of the pass when its
head-of-line query is admitted and the pass then continues (possibly
admitting `rec` more) on the remaining users. -/
theorem track_cons_admit (u : Nat) (q : QueryRow) (st : SettingsRow)
    (rest : List PendingPair) (gs gs2 : List (Nat × List PendingPair))
    (s s2 : PassState) (rec : List (Nat × Nat))
    (hSane : GroupsSane ((u, (q, st) :: rest) :: gs) s.exec.activeQueries)
    (hadm : s2.admitted = (admitStep s u q.qid).admitted ++ rec)
    (hact : s2.exec.activeQueries
      = (admitStep s u q.qid).exec.activeQueries ++ rec.map (·.1))
    (husers : ∀ a ∈ rec, a.2 ∈ gkeys gs)
    (hqids : ∀ a ∈ rec, a.1 ∈ pairQids (allPairs gs))
    (hbuckets : ∀ v, admittedOf rec v ++ bucketQids gs2 v = bucketQids gs v)
    (hkeys : gkeys gs2 = gkeys gs)
    (hsub : List.Sublist (allPairs gs2) (allPairs gs))
    (hSane2 : GroupsSane gs2 s2.exec.activeQueries) :
    s2.admitted = s.admitted ++ ((q.qid, u) :: rec)
    ∧ s2.exec.activeQueries
        = s.exec.activeQueries ++ ((q.qid, u) :: rec).map (·.1)
    ∧ (∀ a ∈ (q.qid, u) :: rec, a.2 ∈ gkeys ((u, (q, st) :: rest) :: gs))
    ∧ (∀ a ∈ (q.qid, u) :: rec,
        a.1 ∈ pairQids (allPairs ((u, (q, st) :: rest) :: gs)))
    ∧ (∀ v, admittedOf ((q.qid, u) :: rec) v ++ bucketQids ((u, rest) :: gs2) v
        = bucketQids ((u, (q, st) :: rest) :: gs) v)
    ∧ gkeys ((u, rest) :: gs2) = gkeys ((u, (q, st) :: rest) :: gs)
    ∧ List.Sublist (allPairs ((u, rest) :: gs2))
        (allPairs ((u, (q, st) :: rest) :: gs))
    ∧ GroupsSane ((u, rest) :: gs2) s2.exec.activeQueries := by
  have hkeysOrig : gkeys ((u, (q, st) :: rest) :: gs) = u :: gkeys gs := rfl
  have hu : u ∉ gkeys gs := by
    have h := hSane.keysNodup
    rw [hkeysOrig] at h
    exact (List.nodup_cons.mp h).1
  have hAllOrig : allPairs ((u, (q, st) :: rest) :: gs)
      = (q, st) :: rest ++ allPairs gs := allPairs_cons _ _
  have hAllOut : allPairs ((u, rest) :: gs2) = rest ++ allPairs gs2 :=
    allPairs_cons _ _
  have hQidsOrig : pairQids (allPairs ((u, (q, st) :: rest) :: gs))
      = q.qid :: (pairQids rest ++ pairQids (allPairs gs)) := by
    rw [hAllOrig]
    show pairQids ((q, st) :: (rest ++ allPairs gs)) = _
    rw [show pairQids ((q, st) :: (rest ++ allPairs gs))
        = q.qid :: pairQids (rest ++ allPairs gs) from rfl, pairQids_append]
  have hQidNotTail : q.qid ∉ pairQids rest ++ pairQids (allPairs gs) := by
    have h := hSane.qidsNodup
    rw [hQidsOrig] at h
    exact (List.nodup_cons.mp h).1
  refine ⟨?_, ?_, ?_, ?_, ?_, ?_, ?_, ?_⟩
  · rw [hadm]
    show (s.admitted ++ [(q.qid, u)]) ++ rec = s.admitted ++ (q.qid, u) :: rec
    rw [List.append_assoc]
    rfl
  · rw [hact]
    show (s.exec.activeQueries ++ [q.qid]) ++ rec.map (·.1)
      = s.exec.activeQueries ++ ((q.qid, u) :: rec).map (·.1)
    rw [List.append_assoc]
    rfl
  · intro a ha
    rcases List.mem_cons.mp ha with h1 | h1
    · subst h1
      rw [hkeysOrig]
      exact List.mem_cons_self _ _
    · rw [hkeysOrig]
      exact List.mem_cons_of_mem _ (husers a h1)
  · intro a ha
    rw [hQidsOrig]
    rcases List.mem_cons.mp ha with h1 | h1
    · subst h1
      exact List.mem_cons_self _ _
    · exact List.mem_cons_of_mem _
        (List.mem_append_right _ (hqids a h1))
  · intro v
    by_cases hv : u = v
    · subst hv
      have hheadKeep : admittedOf ((q.qid, u) :: rec) u
          = q.qid :: admittedOf rec u := by
        simp [admittedOf, List.filter_cons]
      rw [hheadKeep, admittedOf_eq_nil rec u
        (fun a ha h => hu (h ▸ husers a ha))]
      unfold bucketQids
      rw [glookup_cons, glookup_cons, if_pos rfl, if_pos rfl]
      rfl
    · have hheadDrop : admittedOf ((q.qid, u) :: rec) v = admittedOf rec v := by
        have : ¬ ((q.qid, u).2 == v) = true := by simpa using hv
        simp [admittedOf, List.filter_cons, this]
      rw [hheadDrop]
      unfold bucketQids
      rw [glookup_cons, glookup_cons, if_neg hv, if_neg hv]
      exact hbuckets v
  · rw [gkeys_cons, gkeys_cons, hkeys]
  · rw [hAllOrig, hAllOut]
    exact List.Sublist.append (List.sublist_cons_self _ _) hsub
  · constructor
    · rw [gkeys_cons, hkeys]
      exact hkeysOrig ▸ hSane.keysNodup
    · rw [hAllOut, pairQids_append]
      have h := hSane.qidsNodup
      rw [hQidsOrig] at h
      refine ((List.nodup_cons.mp h).2).sublist ?_
      exact List.Sublist.append_left (hsub.map _) _
    · intro p hp
      rw [hAllOut] at hp
      rcases List.mem_append.mp hp with hpRest | hpGs2
      · rw [hact]
        intro hmem
        rcases List.mem_append.mp hmem with h1 | h2
        · rcases List.mem_append.mp h1 with h3 | h4
          · exact hSane.fresh p
              (hAllOrig ▸ List.mem_cons_of_mem _ (List.mem_append_left _ hpRest))
              h3
          · have hpq : p.1.qid = q.qid := by simpa using h4
            exact hQidNotTail (hpq ▸ List.mem_append_left _
              (List.mem_map.mpr ⟨p, hpRest, rfl⟩))
        · obtain ⟨a, ha, haq⟩ := List.mem_map.mp h2
          have h := hSane.qidsNodup
          rw [hQidsOrig] at h
          have hdisj := List.disjoint_of_nodup_append (List.nodup_cons.mp h).2
          exact hdisj (List.mem_map.mpr ⟨p, hpRest, rfl⟩) (haq ▸ hqids a ha)
      · exact hSane2.fresh p hpGs2

theorem GroupsSane_tail (g : Nat × List PendingPair)
    (gs : List (Nat × List PendingPair)) (active : List Nat)
    (h : GroupsSane (g :: gs) active) : GroupsSane gs active := by
  constructor
  · exact (List.nodup_cons.mp (gkeys_cons g gs ▸ h.keysNodup)).2
  · have hq := h.qidsNodup
    rw [allPairs_cons, pairQids_append] at hq
    exact hq.sublist (List.sublist_append_right _ _)
  · intro p hp
    exact h.fresh p (by rw [allPairs_cons]; exact List.mem_append_right _ hp)

theorem GroupsSane_admit_tail (u : Nat) (q : QueryRow) (st : SettingsRow)
    (rest : List PendingPair) (gs : List (Nat × List PendingPair))
    (s : PassState)
    (h : GroupsSane ((u, (q, st) :: rest) :: gs) s.exec.activeQueries) :
    GroupsSane gs (admitStep s u q.qid).exec.activeQueries := by
  have htail := GroupsSane_tail _ _ _ h
  have hQidsOrig : pairQids (allPairs ((u, (q, st) :: rest) :: gs))
      = q.qid :: (pairQids rest ++ pairQids (allPairs gs)) := by
    rw [allPairs_cons]
    show pairQids ((q, st) :: (rest ++ allPairs gs)) = _
    rw [show pairQids ((q, st) :: (rest ++ allPairs gs))
        = q.qid :: pairQids (rest ++ allPairs gs) from rfl, pairQids_append]
  have hQidNotTail : q.qid ∉ pairQids rest ++ pairQids (allPairs gs) := by
    have hn := h.qidsNodup
    rw [hQidsOrig] at hn
    exact (List.nodup_cons.mp hn).1
  constructor
  · exact htail.keysNodup
  · exact htail.qidsNodup
  · intro p hp
    show p.1.qid ∉ s.exec.activeQueries ++ [q.qid]
    intro hmem
    rcases List.mem_append.mp hmem with h1 | h2
    · exact htail.fresh p hp h1
    · have hpq : p.1.qid = q.qid := by simpa using h2
      exact hQidNotTail (hpq ▸ List.mem_append_right _
        (List.mem_map.mpr ⟨p, hp, rfl⟩))

theorem runPass_track (available : Nat) :
    ∀ (gs : List (Nat × List PendingPair)) (s : PassState),
    GroupsSane gs s.exec.activeQueries →
    ∃ newAdm : List (Nat × Nat),
      (passOutState (runPass available gs s)).admitted = s.admitted ++ newAdm
    ∧ (passOutState (runPass available gs s)).exec.activeQueries
        = s.exec.activeQueries ++ newAdm.map (·.1)
    ∧ (∀ a ∈ newAdm, a.2 ∈ gkeys gs)
    ∧ (∀ a ∈ newAdm, a.1 ∈ pairQids (allPairs gs))
    ∧ (∀ v, admittedOf newAdm v
        ++ bucketQids (passOutGroups (runPass available gs s)) v
        = bucketQids gs v)
    ∧ gkeys (passOutGroups (runPass available gs s)) = gkeys gs
    ∧ List.Sublist (allPairs (passOutGroups (runPass available gs s)))
        (allPairs gs)
    ∧ GroupsSane (passOutGroups (runPass available gs s))
        (passOutState (runPass available gs s)).exec.activeQueries := by
  intro gs
  induction gs with
  | nil =>
    intro s hSane
    refine ⟨[], (List.append_nil _).symm, (List.append_nil _).symm,
      fun a ha => absurd ha (List.not_mem_nil a),
      fun a ha => absurd ha (List.not_mem_nil a),
      fun v => rfl, rfl, List.Sublist.refl _, hSane⟩
  | cons g gs ih =>
    intro s hSane
    obtain ⟨u, uq⟩ := g
    match uq with
    | [] =>
      obtain ⟨rec, h1, h2, h3, h4, h5, h6, h7, h8⟩ :=
        ih s (GroupsSane_tail _ _ _ hSane)
      rw [show runPass available ((u, []) :: gs) s
          = consGroup u [] (runPass available gs s) from rfl,
        passOutState_consGroup, passOutGroups_consGroup]
      exact ⟨rec, track_cons_same u [] gs _ s _ rec hSane h1 h2 h3 h4 h5 h6 h7 h8⟩
    | (q, st) :: rest =>
      rcases hlim : pyUserLimit st with _ | limit
      · rw [runPass_cons_none _ _ _ _ _ _ _ hlim]
        refine ⟨[], (List.append_nil _).symm, (List.append_nil _).symm,
          fun a ha => absurd ha (List.not_mem_nil a),
          fun a ha => absurd ha (List.not_mem_nil a),
          fun v => rfl, rfl, List.Sublist.refl _, hSane⟩
      · rw [runPass_cons_some _ _ _ _ _ _ _ _ hlim]
        by_cases hcnt : uaCount s.exec.userActive u < limit
        · rw [if_pos hcnt]
          have hmem : q.qid ∉ s.exec.activeQueries :=
            hSane.fresh (q, st) (by
              rw [allPairs_cons]
              exact List.mem_append_left _ (List.mem_cons_self _ _))
          rw [if_neg hmem]
          by_cases hbreak : available ≤ s.startedCount + 1
          · rw [if_pos hbreak]
            have hSane2 : GroupsSane gs (admitStep s u q.qid).exec.activeQueries :=
              GroupsSane_admit_tail u q st rest gs s hSane
            exact ⟨[(q.qid, u)],
              track_cons_admit u q st rest gs gs s (admitStep s u q.qid) []
                hSane (List.append_nil _).symm
                (by simp)
                (fun a ha => absurd ha (List.not_mem_nil a))
                (fun a ha => absurd ha (List.not_mem_nil a))
                (fun v => rfl) rfl (List.Sublist.refl _) hSane2⟩
          · rw [if_neg hbreak]
            rw [passOutState_consGroup, passOutGroups_consGroup]
            obtain ⟨rec, h1, h2, h3, h4, h5, h6, h7, h8⟩ :=
              ih (admitStep s u q.qid) (GroupsSane_admit_tail u q st rest gs s hSane)
            exact ⟨(q.qid, u) :: rec,
              track_cons_admit u q st rest gs _ s _ rec hSane
                h1 h2 h3 h4 h5 h6 h7 h8⟩
        · rw [if_neg hcnt]
          rw [passOutState_consGroup, passOutGroups_consGroup]
          obtain ⟨rec, h1, h2, h3, h4, h5, h6, h7, h8⟩ :=
            ih s (GroupsSane_tail _ _ _ hSane)
          exact ⟨rec, track_cons_same u ((q, st) :: rest) gs _ s _ rec hSane
            h1 h2 h3 h4 h5 h6 h7 h8⟩

theorem admitLoop_track (available : Nat) :
    ∀ (fuel : Nat) (gs : List (Nat × List PendingPair)) (s : PassState),
    GroupsSane gs s.exec.activeQueries →
    ∃ newAdm : List (Nat × Nat),
      (tickOutState (admitLoop available fuel gs s)).admitted
        = s.admitted ++ newAdm
    ∧ (∀ v, admittedOf newAdm v
        ++ bucketQids (tickOutGroups (admitLoop available fuel gs s)) v
        = bucketQids gs v) := by
  intro fuel
  induction fuel with
  | zero =>
    intro gs s hSane
    exact ⟨[], (List.append_nil _).symm, fun v => rfl⟩
  | succ fuel ih =>
    intro gs s hSane
    by_cases hlt : s.startedCount < available
    · have hSane2 : GroupsSane gs
          ({ s with startedAny := false }).exec.activeQueries := hSane
      obtain ⟨adm1, h1, h2, h3, h4, h5, h6, h7, h8⟩ :=
        runPass_track available gs { s with startedAny := false } hSane2
      rcases hout : runPass available gs { s with startedAny := false }
        with ⟨gs1, s1⟩ | ⟨gs1, s1⟩
      · rw [admitLoop_step_aborted available fuel gs gs1 s s1 hlt hout]
        rw [hout] at h1 h5
        simp only [passOutState, passOutGroups] at h1 h5
        exact ⟨adm1, h1, fun v => h5 v⟩
      · rw [admitLoop_step_fin available fuel gs gs1 s s1 hlt hout]
        rw [hout] at h1 h5 h8
        simp only [passOutState, passOutGroups] at h1 h5 h8
        by_cases hany : s1.startedAny
        · rw [if_pos hany]
          obtain ⟨adm2, g1, g2⟩ := ih gs1 s1 h8
          refine ⟨adm1 ++ adm2, ?_, ?_⟩
          · rw [g1, h1, List.append_assoc]
          · intro v
            rw [admittedOf_append, List.append_assoc, g2 v, h5 v]
        · rw [if_neg hany]
          exact ⟨adm1, h1, fun v => h5 v⟩
    · rw [admitLoop_stop available fuel gs s hlt]
      exact ⟨[], (List.append_nil _).symm, fun v => rfl⟩

theorem pair_sublist_of_decomp :
    ∀ (L1 P R L2 L3 : List Nat) (x y : Nat),
    P ++ R = L1 ++ x :: L2 ++ y :: L3 →
    (L1 ++ x :: L2 ++ y :: L3).Nodup →
    y ∈ P → List.Sublist [x, y] P := by
  intro L1
  induction L1 with
  | nil =>
    intro P R L2 L3 x y heq hnd hy
    cases P with
    | nil => cases hy
    | cons p P2 =>
      rw [List.nil_append] at heq hnd
      rw [List.cons_append] at heq
      injection heq with hpx htail
      subst hpx
      have hxy : ¬ y = p := by
        intro h
        subst h
        exact (List.nodup_cons.mp hnd).1
          (List.mem_append_right _ (List.mem_cons_self _ _))
      have hyP2 : y ∈ P2 := by
        rcases List.mem_cons.mp hy with h | h
        · exact absurd h hxy
        · exact h
      exact List.Sublist.cons₂ p (List.singleton_sublist.mpr hyP2)
  | cons z L1' ih =>
    intro P R L2 L3 x y heq hnd hy
    cases P with
    | nil => cases hy
    | cons p P2 =>
      rw [List.cons_append] at heq
      rw [List.cons_append] at heq hnd
      injection heq with hpz htail
      subst hpz
      have hnd2 : (L1' ++ x :: L2 ++ y :: L3).Nodup := (List.nodup_cons.mp hnd).2
      have hyp : ¬ y = p := by
        intro h
        subst h
        exact (List.nodup_cons.mp hnd).1 (by simp)
      have hyP2 : y ∈ P2 := by
        rcases List.mem_cons.mp hy with h | h
        · exact absurd h hyp
        · exact h
      exact List.Sublist.cons p (ih P2 R L2 L3 x y htail hnd2 hyP2)

theorem filter_mem_unique (l : List PendingPair) (x : Nat)
    (hnd : (l.map fun p => p.1.qid).Nodup) (p1 p2 : PendingPair → Bool)
    (h1 : x ∈ (l.filter p1).map fun p => p.1.qid)
    (h2 : x ∈ (l.filter p2).map fun p => p.1.qid) :
    ∃ y ∈ l, p1 y = true ∧ p2 y = true := by
  obtain ⟨y1, hy1, hq1⟩ := List.mem_map.mp h1
  obtain ⟨y2, hy2, hq2⟩ := List.mem_map.mp h2
  have hy1l := List.mem_of_mem_filter hy1
  have hy2l := List.mem_of_mem_filter hy2
  have heq : y1 = y2 :=
    List.inj_on_of_nodup_map hnd hy1l hy2l (hq1.trans hq2.symm)
  exact ⟨y1, hy1l, List.of_mem_filter hy1, heq ▸ List.of_mem_filter hy2⟩

theorem mem_decomp_of_pairwise (L : List PendingPair) (pa pb : PendingPair)
    (hpw : L.Pairwise fun p1 p2 => p1.1.createdAt ≤ p2.1.createdAt)
    (ha : pa ∈ L) (hb : pb ∈ L) (hlt : pa.1.createdAt < pb.1.createdAt) :
    ∃ l1 l2 l3, L = l1 ++ pa :: l2 ++ pb :: l3 := by
  obtain ⟨m1, m2, hm⟩ := List.append_of_mem hb
  subst hm
  rcases List.mem_append.mp ha with h1 | h1
  · obtain ⟨l1, l2, hl⟩ := List.append_of_mem h1
    subst hl
    refine ⟨l1, l2, m2, ?_⟩
    rw [List.append_assoc]
  · exfalso
    rcases List.mem_cons.mp h1 with h2 | h2
    · rw [h2] at hlt
      exact Nat.lt_irrefl _ hlt
    · have hcross := (List.pairwise_cons.mp (List.pairwise_append.mp hpw).2.1).1
      have hle := hcross pa h2
      omega

theorem GroupsSane_of_pending (pending : List PendingPair) (active : List Nat)
    (hnodup : (pending.map fun p => p.1.qid).Nodup)
    (hfresh : ∀ p ∈ pending, p.1.qid ∉ active) :
    GroupsSane (groupByUser pending) active := by
  have hperm := allPairs_groupByUser pending
  constructor
  · exact gkeys_groupByUser_nodup pending
  · exact ((hperm.map fun p => p.1.qid).nodup_iff).mpr hnodup
  · intro p hp
    exact hfresh p (hperm.mem_iff.mp hp)

/-- C6: per-user FIFO admission.  If two pending queries of the same user
are visible on the same tick with `created_at(a) < created_at(b)` (the
fetched list being ordered by `created_at`, with distinct ids not already
active), then whenever `b` is admitted on that tick, `a` was admitted
earlier on it: `[a.qid, b.qid]` is a sublist of the tick's admission
sequence. -/
theorem admission_fifo_per_user (maxTotal : Nat) (exec : SchedState)
    (pending : List PendingPair) (a b : QueryRow) (sa sb : SettingsRow)
    (hsorted : pending.Pairwise fun p1 p2 => p1.1.createdAt ≤ p2.1.createdAt)
    (hnodup : (pending.map fun p => p.1.qid).Nodup)
    (hfresh : ∀ p ∈ pending, p.1.qid ∉ exec.activeQueries)
    (ha : (a, sa) ∈ pending) (hb : (b, sb) ∈ pending)
    (huser : a.userId = b.userId) (hlt : a.createdAt < b.createdAt)
    (hbadm : b.qid ∈ (tickOutState (runTick maxTotal exec pending)).admitted.map
      fun x => x.1) :
    List.Sublist [a.qid, b.qid]
      ((tickOutState (runTick maxTotal exec pending)).admitted.map
        fun x => x.1) := by
  unfold runTick at hbadm ⊢
  by_cases hav : 0 < maxTotal - uaTotal exec.userActive
  · rw [if_pos hav] at hbadm ⊢
    have hSane : GroupsSane (groupByUser pending)
        ({ exec := exec, startedCount := 0, admitted := [],
           startedAny := false } : PassState).exec.activeQueries :=
      GroupsSane_of_pending pending exec.activeQueries hnodup hfresh
    obtain ⟨newAdm, hadm, hbuckets⟩ :=
      admitLoop_track (maxTotal - uaTotal exec.userActive)
        (maxTotal - uaTotal exec.userActive + 1) (groupByUser pending)
        { exec := exec, startedCount := 0, admitted := [], startedAny := false }
        hSane
    have hadm2 : (tickOutState (admitLoop (maxTotal - uaTotal exec.userActive)
        (maxTotal - uaTotal exec.userActive + 1) (groupByUser pending)
        { exec := exec, startedCount := 0, admitted := [],
          startedAny := false })).admitted = newAdm := hadm
    rw [hadm2] at hbadm ⊢
    obtain ⟨ab, hab, habq⟩ := List.mem_map.mp hbadm
    have hbAdmOf : b.qid ∈ admittedOf newAdm ab.2 := by
      unfold admittedOf
      exact List.mem_map.mpr ⟨ab, List.mem_filter.mpr ⟨hab, by simp⟩, habq⟩
    have hbeq := hbuckets ab.2
    have hbucketCharV : bucketQids (groupByUser pending) ab.2
        = (pending.filter fun p => p.1.userId == ab.2).map fun p => p.1.qid := by
      unfold bucketQids
      rw [glookup_groupByUser]
    have hbfv : b.qid ∈ (pending.filter fun p => p.1.userId == ab.2).map
        fun p => p.1.qid := by
      rw [← hbucketCharV, ← hbeq]
      exact List.mem_append_left _ hbAdmOf
    have hbfu : b.qid ∈ (pending.filter fun p => p.1.userId == b.userId).map
        fun p => p.1.qid :=
      List.mem_map.mpr ⟨(b, sb), List.mem_filter.mpr ⟨hb, by simp⟩, rfl⟩
    obtain ⟨y, hy, hyv, hyu⟩ :=
      filter_mem_unique pending b.qid hnodup _ _ hbfv hbfu
    have hveq : ab.2 = b.userId := by
      have h1 : y.1.userId = ab.2 := by simpa using hyv
      have h2 : y.1.userId = b.userId := by simpa using hyu
      rw [← h1, h2]
    rw [hveq] at hbAdmOf hbeq
    have hbucketCharU : bucketQids (groupByUser pending) b.userId
        = (pending.filter fun p => p.1.userId == b.userId).map
          fun p => p.1.qid := by
      unfold bucketQids
      rw [glookup_groupByUser]
    have hpwL : (pending.filter fun p => p.1.userId == b.userId).Pairwise
        fun p1 p2 => p1.1.createdAt ≤ p2.1.createdAt := hsorted.filter _
    have haL : (a, sa) ∈ pending.filter fun p => p.1.userId == b.userId :=
      List.mem_filter.mpr ⟨ha, by simp [huser]⟩
    have hbL : (b, sb) ∈ pending.filter fun p => p.1.userId == b.userId :=
      List.mem_filter.mpr ⟨hb, by simp⟩
    obtain ⟨l1, l2, l3, hdecomp⟩ :=
      mem_decomp_of_pairwise _ (a, sa) (b, sb) hpwL haL hbL hlt
    have hLmap : (pending.filter fun p => p.1.userId == b.userId).map
        (fun p => p.1.qid)
        = (l1.map fun p => p.1.qid) ++ a.qid :: (l2.map fun p => p.1.qid)
          ++ b.qid :: (l3.map fun p => p.1.qid) := by
      rw [hdecomp, List.map_append, List.map_append, List.map_cons,
        List.map_cons]
    have hLnodup : ((pending.filter fun p => p.1.userId == b.userId).map
        fun p => p.1.qid).Nodup :=
      hnodup.sublist ((List.filter_sublist pending).map _)
    have hkey := hbeq.trans hbucketCharU
    rw [hLmap] at hkey
    have hsub1 : List.Sublist [a.qid, b.qid] (admittedOf newAdm b.userId) :=
      pair_sublist_of_decomp (l1.map fun p => p.1.qid) _ _
        (l2.map fun p => p.1.qid) (l3.map fun p => p.1.qid) a.qid b.qid hkey
        (by rw [← hLmap]; exact hLnodup) hbAdmOf
    have hsub2 : List.Sublist (admittedOf newAdm b.userId)
        (newAdm.map fun x => x.1) :=
      (List.filter_sublist newAdm).map _
    exact hsub1.trans hsub2
  · rw [if_neg hav] at hbadm
    exact absurd hbadm (by simp [tickOutState])

/-- A settings row with `max_parallel_queries = 2` for user `u`. -/
def settingsTwo (u : Nat) : SettingsRow :=
  { userId := u, exportLocation := none, exportType := none,
    maxParallelQueries := some 2, sshHostname := none, sshPort := some 22,
    sshUsername := none, sshPassword := none, sshKey := none }

/-- Two pending queries of the same user (limit 2), in creation order. -/
def pendingSameUser : List PendingPair :=
  [({ baseRow with qid := 41, userId := 1, createdAt := 0 }, settingsTwo 1),
   ({ baseRow with qid := 42, userId := 1, createdAt := 1 }, settingsTwo 1)]

/-- C6 witness: FIFO order at a concrete tick admitting both queries. -/
theorem admission_fifo_per_user_witness :
    List.Sublist [41, 42]
      ((tickOutState (runTick 50 ⟨[], []⟩ pendingSameUser)).admitted.map
        fun x => x.1) :=
  admission_fifo_per_user 50 ⟨[], []⟩ pendingSameUser
    { baseRow with qid := 41, userId := 1, createdAt := 0 }
    { baseRow with qid := 42, userId := 1, createdAt := 1 }
    (settingsTwo 1) (settingsTwo 1)
    (by decide) (by decide) (by decide) (by decide) (by decide) rfl
    (by decide) (by decide)
